import Mathlib

/-!
# Verification of the `lru` package: doubly-linked list and LRU cache

This development embeds the Go package `lru` (files `list.go`, `cache.go`,
and the untyped list variant) into Lean.  Pointers are modelled as indices
into an arena of all nodes ever allocated; Go's `nil` pointer is `none`.
Every mutation of a node through a pointer becomes an arena update at the
corresponding index, performed in the same order as the Go statements, so
aliasing behaves exactly as in the source.
-/

namespace LRU

/-- A node of the doubly-linked list (`ListItem` in `list.go`): a stored
value plus links to the next and previous nodes.  Links are arena indices;
`none` is Go's `nil`. -/
structure Node (V : Type) where
  value : V
  next : Option Nat
  prev : Option Nat
deriving Repr, DecidableEq

/-- The list header (`list` in `list.go`): the stored `len` (a Go `int`,
modelled as `Int`), the `front` and `back` pointers, and the arena holding
every node ever allocated (a node's identity is its index). -/
structure GoList (V : Type) where
  nodes : List (Node V)
  len : Int
  front : Option Nat
  back : Option Nat
deriving Repr, DecidableEq

/-- `NewList` in `list.go`: a zero-valued list. -/
def newList (V : Type) : GoList V := ⟨[], 0, none, none⟩

/-- Dereference a pointer: read the node at arena index `i`. -/
def getN (l : GoList V) (i : Nat) : Option (Node V) := l.nodes[i]?

/-- Update the node at arena index `i` (no-op when the index is not in the
arena, which corresponds to a pointer value that cannot exist in Go). -/
def updAt (ns : List (Node V)) (i : Nat) (f : Node V → Node V) : List (Node V) :=
  match ns[i]? with
  | some n => ns.set i (f n)
  | none => ns

/-- The Go assignment `i.Next = nx`. -/
def setNext (l : GoList V) (i : Nat) (nx : Option Nat) : GoList V :=
  { l with nodes := updAt l.nodes i (fun n => { n with next := nx }) }

/-- The Go assignment `i.Prev = pv`. -/
def setPrev (l : GoList V) (i : Nat) (pv : Option Nat) : GoList V :=
  { l with nodes := updAt l.nodes i (fun n => { n with prev := pv }) }

/-- `Len()` in `list.go`. -/
def Len (l : GoList V) : Int := l.len

/-- `Front()` in `list.go`: the front pointer (`none` when empty). -/
def Front (l : GoList V) : Option Nat := l.front

/-- `Back()` in `list.go`: the back pointer (`none` when empty). -/
def Back (l : GoList V) : Option Nat := l.back

/-- `pushFrontLogic` in `list.go`, the shared helper of `PushFront` and
`MoveToFront`.  `i` is the (non-nil) node pointer being linked in.  The
three branches are the `switch l.len` cases `0`, `1`, `default`; the final
two statements are `l.front.Prev = nil` and `l.len++`.  The `none`
fall-through branches correspond to Go nil-pointer dereferences, which are
unreachable for any list satisfying the representation invariant. -/
def pushFrontLogic (l : GoList V) (i : Nat) : GoList V :=
  let l1 :=
    if l.len = 0 then
      -- l.front = i; l.back = i; l.front.Next = nil
      setNext { l with front := some i, back := some i } i none
    else if l.len = 1 then
      -- l.front = i; l.front.Next = l.back; l.back.Prev = l.front
      let l' := setNext { l with front := some i } i l.back
      match l.back with
      | some b => setPrev l' b (some i)
      | none => l'
    else
      -- l.front.Prev = i; i.Next = l.front; l.front = i
      match l.front with
      | some f => { setNext (setPrev l f (some i)) i (some f) with front := some i }
      | none => l
  let l2 :=
    match l1.front with
    | some f => setPrev l1 f none
    | none => l1
  { l2 with len := l2.len + 1 }

/-- `PushFront` in `list.go`: allocate a fresh node holding `v` (its `Next`
and `Prev` are Go zero values, i.e. nil) and link it via `pushFrontLogic`.
Returns the new list and the created node's pointer. -/
def pushFront (l : GoList V) (v : V) : GoList V × Nat :=
  let i := l.nodes.length
  let l0 := { l with nodes := l.nodes ++ [(⟨v, none, none⟩ : Node V)] }
  (pushFrontLogic l0 i, i)

/-- `PushBack` in `list.go`.  Returns the new list and the created node's
pointer. -/
def pushBack (l : GoList V) (v : V) : GoList V × Nat :=
  let i := l.nodes.length
  let l0 := { l with nodes := l.nodes ++ [(⟨v, none, none⟩ : Node V)] }
  let l1 :=
    if l0.len = 0 then
      -- l.front = newItem; l.back = newItem
      { l0 with front := some i, back := some i }
    else if l0.len = 1 then
      -- l.back = newItem; l.back.Prev = l.front; l.front.Next = l.back
      let l' := setPrev { l0 with back := some i } i l0.front
      match l0.front with
      | some f => setNext l' f (some i)
      | none => l'
    else
      -- l.back.Next = newItem; newItem.Prev = l.back; l.back = newItem
      match l0.back with
      | some b => { setPrev (setNext l0 b (some i)) i (some b) with back := some i }
      | none => l0
  ({ l1 with len := l1.len + 1 }, i)

/-- `Remove` in `list.go`.  At length 0 it returns before touching `l.len`;
otherwise the `switch elem` distinguishes the front, back and interior
cases, and `l.len--` runs afterwards.  Reads and writes happen in the Go
statement order: in the interior case `elem.Next`/`elem.Prev` are re-read
for the second assignment after the first assignment has executed. -/
def remove (l : GoList V) (elem : Nat) : GoList V :=
  if l.len = 0 then l
  else
    let l1 :=
      if l.len = 1 then
        -- l.front = nil; l.back = nil
        { l with front := none, back := none }
      else
        if some elem = l.front then
          -- l.front = elem.Next; l.front.Prev = nil
          match getN l elem with
          | some n =>
            let l' := { l with front := n.next }
            match n.next with
            | some f2 => setPrev l' f2 none
            | none => l'
          | none => l
        else if some elem = l.back then
          -- l.back = elem.Prev; l.back.Next = nil
          match getN l elem with
          | some n =>
            let l' := { l with back := n.prev }
            match n.prev with
            | some b2 => setNext l' b2 none
            | none => l'
          | none => l
        else
          -- elem.Prev.Next = elem.Next; elem.Next.Prev = elem.Prev
          match getN l elem with
          | some n =>
            let l' :=
              match n.prev with
              | some p => setNext l p n.next
              | none => l
            match getN l' elem with
            | some n2 =>
              match n2.next with
              | some q => setPrev l' q n2.prev
              | none => l'
            | none => l'
          | none => l
    { l1 with len := l1.len - 1 }

/-- `MoveToFront` in `list.go`: `l.Remove(elem); l.pushFrontLogic(elem)`. -/
def moveToFront (l : GoList V) (elem : Nat) : GoList V :=
  pushFrontLogic (remove l elem) elem

/-! ## Arena update lemmas -/

theorem length_updAt (ns : List (Node V)) (i : Nat) (f : Node V → Node V) :
    (updAt ns i f).length = ns.length := by
  unfold updAt
  cases ns[i]? with
  | none => rfl
  | some n => simp

theorem getElem?_updAt_ne (ns : List (Node V)) (f : Node V → Node V) {i j : Nat}
    (h : i ≠ j) : (updAt ns i f)[j]? = ns[j]? := by
  unfold updAt
  cases ns[i]? with
  | none => rfl
  | some n => exact List.getElem?_set_ne h

theorem getElem?_updAt_self (ns : List (Node V)) (f : Node V → Node V) (i : Nat) :
    (updAt ns i f)[i]? = (ns[i]?).map f := by
  unfold updAt
  cases h : ns[i]? with
  | none => simp [h]
  | some n =>
    have hi : i < ns.length := (List.getElem?_eq_some.mp h).1
    simp [List.getElem?_set_self hi]

/-! ## The chain representation predicate

`dseg ns pv ids nx` says that the arena indices `ids` form a doubly-linked
segment inside arena `ns`: the first node's `prev` is `pv`, consecutive
nodes point at each other, and the last node's `next` is `nx`. -/

/-- The pointer to the first node of `ids`, or `nx` when `ids` is empty. -/
def headOr (ids : List Nat) (nx : Option Nat) : Option Nat :=
  match ids with
  | [] => nx
  | j :: _ => some j

/-- The pointer to the last node of `ids`, or `pv` when `ids` is empty. -/
def lastOr (pv : Option Nat) (ids : List Nat) : Option Nat :=
  match ids.getLast? with
  | some b => some b
  | none => pv

/-- Node `i` exists in the arena and has exactly the links `pv`/`nx`. -/
def nodeOk (ns : List (Node V)) (pv : Option Nat) (i : Nat) (nx : Option Nat) : Bool :=
  match ns[i]? with
  | some n => n.prev == pv && n.next == nx
  | none => false

/-- The doubly-linked segment predicate. -/
def dseg (ns : List (Node V)) : Option Nat → List Nat → Option Nat → Bool
  | _, [], _ => true
  | pv, i :: rest, nx => nodeOk ns pv i (headOr rest nx) && dseg ns (some i) rest nx

theorem headOr_append (xs ys : List Nat) (nx : Option Nat) :
    headOr (xs ++ ys) nx = headOr xs (headOr ys nx) := by
  cases xs <;> rfl

theorem lastOr_cons (pv : Option Nat) (x : Nat) (xs : List Nat) :
    lastOr pv (x :: xs) = lastOr (some x) xs := by
  unfold lastOr
  cases xs with
  | nil => rfl
  | cons y ys =>
    rw [List.getLast?_cons_cons]
    cases h : (y :: ys).getLast? with
    | none => simp at h
    | some b => rfl

theorem dseg_append (ns : List (Node V)) (pv : Option Nat) (xs ys : List Nat)
    (nx : Option Nat) :
    dseg ns pv (xs ++ ys) nx =
      (dseg ns pv xs (headOr ys nx) && dseg ns (lastOr pv xs) ys nx) := by
  induction xs generalizing pv with
  | nil => simp [dseg, lastOr]
  | cons x xs ih =>
    simp only [List.cons_append, dseg, List.append_eq, headOr_append, ih (some x),
      lastOr_cons, Bool.and_assoc]

theorem dseg_updAt_not_mem (ns : List (Node V)) (f : Node V → Node V) {i : Nat}
    {ids : List Nat} (h : i ∉ ids) (pv nx : Option Nat) :
    dseg (updAt ns i f) pv ids nx = dseg ns pv ids nx := by
  induction ids generalizing pv with
  | nil => rfl
  | cons j rest ih =>
    have hij : i ≠ j := fun he => h (he ▸ List.mem_cons_self j rest)
    have hrest : i ∉ rest := fun hm => h (List.mem_cons_of_mem j hm)
    simp only [dseg, ih hrest, nodeOk, getElem?_updAt_ne ns f hij]

theorem mem_lt_of_dseg {ns : List (Node V)} {pv nx : Option Nat} {ids : List Nat}
    (h : dseg ns pv ids nx = true) {i : Nat} (hm : i ∈ ids) : i < ns.length := by
  induction ids generalizing pv with
  | nil => cases hm
  | cons j rest ih =>
    simp only [dseg, Bool.and_eq_true] at h
    rcases List.mem_cons.mp hm with he | hm'
    · subst he
      have := h.1
      unfold nodeOk at this
      cases hj : ns[i]? with
      | none => rw [hj] at this; cases this
      | some n => exact (List.getElem?_eq_some.mp hj).1
    · exact ih h.2 hm'

/-- The full representation invariant of `list.go`: the stored `len`, the
`front`/`back` pointers and the link fields all describe the same chain
`ids` of distinct arena indices. -/
def listRep (l : GoList V) (ids : List Nat) : Prop :=
  l.len = (ids.length : Int) ∧ l.front = ids.head? ∧ l.back = ids.getLast? ∧
    ids.Nodup ∧ dseg l.nodes none ids none = true

instance (l : GoList V) [DecidableEq V] (ids : List Nat) : Decidable (listRep l ids) := by
  unfold listRep; infer_instance

theorem nodeOk_eq {ns : List (Node V)} {pv nx : Option Nat} {i : Nat}
    (h : nodeOk ns pv i nx = true) :
    ∃ n, ns[i]? = some n ∧ n.prev = pv ∧ n.next = nx := by
  unfold nodeOk at h
  cases hn : ns[i]? with
  | none => rw [hn] at h; cases h
  | some n =>
    rw [hn] at h
    rw [Bool.and_eq_true, beq_iff_eq, beq_iff_eq] at h
    exact ⟨n, rfl, h.1, h.2⟩

theorem nodeOk_intro {ns : List (Node V)} {pv nx : Option Nat} {i : Nat} {n : Node V}
    (hn : ns[i]? = some n) (h1 : n.prev = pv) (h2 : n.next = nx) :
    nodeOk ns pv i nx = true := by
  unfold nodeOk
  rw [hn, Bool.and_eq_true, beq_iff_eq, beq_iff_eq]
  exact ⟨h1, h2⟩

theorem dseg_arena_append {ns : List (Node V)} {ids : List Nat}
    (hlt : ∀ j ∈ ids, j < ns.length) (ms : List (Node V)) (pv nx : Option Nat) :
    dseg (ns ++ ms) pv ids nx = dseg ns pv ids nx := by
  induction ids generalizing pv with
  | nil => rfl
  | cons j rest ih =>
    have hj : j < ns.length := hlt j (List.mem_cons_self j rest)
    have hrest : ∀ m ∈ rest, m < ns.length := fun m hm => hlt m (List.mem_cons_of_mem j hm)
    simp only [dseg, ih hrest, nodeOk, List.getElem?_append_left hj]

/-- Extending the arena with freshly allocated nodes does not disturb the
representation of the existing chain. -/
theorem listRep_extend {l : GoList V} {ids : List Nat} (h : listRep l ids)
    (m : Node V) : listRep { l with nodes := l.nodes ++ [m] } ids := by
  obtain ⟨hlen, hfront, hback, hnd, hseg⟩ := h
  exact ⟨hlen, hfront, hback, hnd, by
    rw [dseg_arena_append (fun j hj => mem_lt_of_dseg hseg hj)]; exact hseg⟩

/-! ## Value and length preservation -/

/-- The front-to-back-independent view of the arena: just the stored values. -/
def valMap (l : GoList V) : List V := l.nodes.map Node.value

theorem map_value_updAt (ns : List (Node V)) (i : Nat) {f : Node V → Node V}
    (hf : ∀ n, (f n).value = n.value) :
    (updAt ns i f).map Node.value = ns.map Node.value := by
  apply List.ext_getElem?
  intro j
  by_cases hij : i = j
  · subst hij
    rw [List.getElem?_map, List.getElem?_map, getElem?_updAt_self]
    cases ns[i]? with
    | none => rfl
    | some n => simp [hf]
  · rw [List.getElem?_map, List.getElem?_map, getElem?_updAt_ne ns f hij]

theorem map_value_updAt_next (ns : List (Node V)) (i : Nat) (nx : Option Nat) :
    (updAt ns i (fun n => { n with next := nx })).map Node.value = ns.map Node.value :=
  map_value_updAt ns i (fun _ => rfl)

theorem map_value_updAt_prev (ns : List (Node V)) (i : Nat) (pv : Option Nat) :
    (updAt ns i (fun n => { n with prev := pv })).map Node.value = ns.map Node.value :=
  map_value_updAt ns i (fun _ => rfl)

theorem valMap_setNext (l : GoList V) (i : Nat) (nx : Option Nat) :
    valMap (setNext l i nx) = valMap l :=
  map_value_updAt l.nodes i (fun _ => rfl)

theorem valMap_setPrev (l : GoList V) (i : Nat) (pv : Option Nat) :
    valMap (setPrev l i pv) = valMap l :=
  map_value_updAt l.nodes i (fun _ => rfl)

theorem valMap_pushFrontLogic (l : GoList V) (i : Nat) :
    valMap (pushFrontLogic l i) = valMap l := by
  unfold pushFrontLogic valMap
  repeat (first
    | rfl
    | split
    | simp only [setNext, setPrev, map_value_updAt_next, map_value_updAt_prev])

theorem valMap_remove (l : GoList V) (e : Nat) :
    valMap (remove l e) = valMap l := by
  unfold remove valMap
  repeat (first
    | rfl
    | split
    | simp only [setNext, setPrev, map_value_updAt_next, map_value_updAt_prev])

theorem valMap_moveToFront (l : GoList V) (e : Nat) :
    valMap (moveToFront l e) = valMap l := by
  unfold moveToFront
  rw [valMap_pushFrontLogic, valMap_remove]

theorem valMap_pushFront (l : GoList V) (v : V) :
    valMap (pushFront l v).1 = valMap l ++ [v] := by
  unfold pushFront
  rw [valMap_pushFrontLogic]
  simp [valMap]

theorem nodes_length_pushFrontLogic (l : GoList V) (i : Nat) :
    (pushFrontLogic l i).nodes.length = l.nodes.length := by
  have := congrArg List.length (valMap_pushFrontLogic l i)
  simpa [valMap] using this

theorem nodes_length_remove (l : GoList V) (e : Nat) :
    (remove l e).nodes.length = l.nodes.length := by
  have := congrArg List.length (valMap_remove l e)
  simpa [valMap] using this

theorem nodes_length_moveToFront (l : GoList V) (e : Nat) :
    (moveToFront l e).nodes.length = l.nodes.length := by
  have := congrArg List.length (valMap_moveToFront l e)
  simpa [valMap] using this

theorem nodes_length_pushFront (l : GoList V) (v : V) :
    (pushFront l v).1.nodes.length = l.nodes.length + 1 := by
  have := congrArg List.length (valMap_pushFront l v)
  simpa [valMap] using this

/-! ## Representation preservation for the list operations -/

theorem pushFrontLogic_rep {l : GoList V} {ids : List Nat} (hrep : listRep l ids)
    {i : Nat} (hi : i < l.nodes.length) (hni : i ∉ ids) :
    listRep (pushFrontLogic l i) (i :: ids) := by
  obtain ⟨hlen, hfront, hback, hnd, hseg⟩ := hrep
  obtain ⟨ni, hgi⟩ : ∃ n, l.nodes[i]? = some n := ⟨l.nodes[i], List.getElem?_eq_getElem hi⟩
  match ids with
  | [] =>
    have h0 : l.len = 0 := by simpa using hlen
    refine ⟨?_, ?_, ?_, ?_, ?_⟩
    · simp [pushFrontLogic, h0, setNext, setPrev]
    · simp [pushFrontLogic, h0, setNext, setPrev]
    · simp [pushFrontLogic, h0, setNext, setPrev]
    · simp
    · have harena : (pushFrontLogic l i).nodes =
          updAt (updAt l.nodes i (fun n => { n with next := none })) i
            (fun n => { n with prev := none }) := by
        simp [pushFrontLogic, h0, setNext, setPrev]
      have hgi0 : (pushFrontLogic l i).nodes[i]? =
          some { ni with next := none, prev := none } := by
        rw [harena, getElem?_updAt_self, getElem?_updAt_self, hgi]
        rfl
      rw [show dseg (pushFrontLogic l i).nodes none [i] none =
          (nodeOk (pushFrontLogic l i).nodes none i none && true) from rfl, Bool.and_true]
      exact nodeOk_intro hgi0 rfl rfl
  | [j] =>
    have h1 : l.len = 1 := by simpa using hlen
    have hb : l.back = some j := by simpa using hback
    have hij : i ≠ j := by simpa using hni
    have hnj := nodeOk_eq (by simpa [dseg] using hseg)
    obtain ⟨nj, hgj, hjp, hjn⟩ := hnj
    have harena : (pushFrontLogic l i).nodes =
        updAt (updAt (updAt l.nodes i (fun n => { n with next := some j })) j
          (fun n => { n with prev := some i })) i (fun n => { n with prev := none }) := by
      simp [pushFrontLogic, h1, hb, setNext, setPrev]
    have hgi' : (pushFrontLogic l i).nodes[i]? =
        some { ni with next := some j, prev := none } := by
      rw [harena, getElem?_updAt_self, getElem?_updAt_ne _ _ (Ne.symm hij),
        getElem?_updAt_self, hgi]
      rfl
    have hgj' : (pushFrontLogic l i).nodes[j]? = some { nj with prev := some i } := by
      rw [harena, getElem?_updAt_ne _ _ hij, getElem?_updAt_self,
        getElem?_updAt_ne _ _ hij, hgj]
      rfl
    refine ⟨?_, ?_, ?_, ?_, ?_⟩
    · simp [pushFrontLogic, h1, hb, setNext, setPrev]
    · simp [pushFrontLogic, h1, hb, setNext, setPrev]
    · simp [pushFrontLogic, h1, hb, setNext, setPrev]
    · simp [hij]
    · simp only [dseg, Bool.and_true, Bool.and_eq_true]
      exact ⟨nodeOk_intro hgi' rfl rfl, nodeOk_intro hgj' rfl (by simp [hjn])⟩
  | j :: k :: rest =>
    have hne0 : ¬ l.len = 0 := by
      rw [hlen]; simp only [List.length_cons]; push_cast; omega
    have hne1 : ¬ l.len = 1 := by
      rw [hlen]; simp only [List.length_cons]; push_cast; omega
    have hf : l.front = some j := by simpa using hfront
    have hij : i ≠ j := fun he => hni (he ▸ List.mem_cons_self _ _)
    have hitail : i ∉ k :: rest := fun hm => hni (List.mem_cons_of_mem _ hm)
    have hjtail : j ∉ k :: rest := by
      have := hnd
      simp only [List.nodup_cons] at this
      exact this.1
    rw [show dseg l.nodes none (j :: k :: rest) none =
        (nodeOk l.nodes none j (some k) && dseg l.nodes (some j) (k :: rest) none) from rfl,
      Bool.and_eq_true] at hseg
    obtain ⟨nj, hgj, hjp, hjn⟩ := nodeOk_eq hseg.1
    have harena : (pushFrontLogic l i).nodes =
        updAt (updAt (updAt l.nodes j (fun n => { n with prev := some i })) i
          (fun n => { n with next := some j })) i (fun n => { n with prev := none }) := by
      simp [pushFrontLogic, hne0, hne1, hf, setNext, setPrev]
    have hgi' : (pushFrontLogic l i).nodes[i]? =
        some { ni with next := some j, prev := none } := by
      rw [harena, getElem?_updAt_self, getElem?_updAt_self,
        getElem?_updAt_ne _ _ (Ne.symm hij), hgi]
      rfl
    have hgj' : (pushFrontLogic l i).nodes[j]? = some { nj with prev := some i } := by
      rw [harena, getElem?_updAt_ne _ _ hij, getElem?_updAt_ne _ _ hij,
        getElem?_updAt_self, hgj]
      rfl
    refine ⟨?_, ?_, ?_, ?_, ?_⟩
    · have hlen' : (pushFrontLogic l i).len = l.len + 1 := by
        simp [pushFrontLogic, hne0, hne1, hf, setNext, setPrev]
      rw [hlen', hlen]
      simp only [List.length_cons]
      push_cast
      ring
    · simp [pushFrontLogic, hne0, hne1, hf, setNext, setPrev]
    · have : (pushFrontLogic l i).back = l.back := by
        simp [pushFrontLogic, hne0, hne1, hf, setNext, setPrev]
      rw [this, hback]
      simp only [List.getLast?_cons_cons]
    · exact List.nodup_cons.mpr ⟨hni, hnd⟩
    · rw [show dseg (pushFrontLogic l i).nodes none (i :: j :: k :: rest) none =
          (nodeOk (pushFrontLogic l i).nodes none i (some j) &&
            (nodeOk (pushFrontLogic l i).nodes (some i) j (some k) &&
              dseg (pushFrontLogic l i).nodes (some j) (k :: rest) none)) from rfl,
        Bool.and_eq_true, Bool.and_eq_true]
      refine ⟨nodeOk_intro hgi' rfl rfl, nodeOk_intro hgj' rfl (by simp [hjn]), ?_⟩
      rw [harena, dseg_updAt_not_mem _ _ hitail, dseg_updAt_not_mem _ _ hitail,
        dseg_updAt_not_mem _ _ hjtail]
      exact hseg.2

theorem lastOr_concat (pv : Option Nat) (xs : List Nat) (p : Nat) :
    lastOr pv (xs ++ [p]) = some p := by
  unfold lastOr
  rw [List.getLast?_concat]

theorem mem_cons_getLast? {q : Nat} {ys : List Nat} {e : Nat}
    (h : (q :: ys).getLast? = some e) : e ∈ q :: ys := by
  obtain ⟨hne, heq⟩ := List.mem_getLast?_eq_getLast (l := q :: ys) (x := e) h
  exact heq ▸ List.getLast_mem hne

theorem remove_rep {l : GoList V} {ids : List Nat} (hrep : listRep l ids)
    {e : Nat} (he : e ∈ ids) : listRep (remove l e) (ids.erase e) := by
  obtain ⟨hlen, hfront, hback, hnd, hseg⟩ := hrep
  match ids with
  | [j] =>
    have hej : e = j := by simpa using he
    subst hej
    have h1 : l.len = 1 := by simpa using hlen
    have hne0 : ¬ l.len = 0 := by rw [h1]; norm_num
    have hr : remove l e = { l with front := none, back := none, len := l.len - 1 } := by
      simp [remove, hne0, h1]
    rw [List.erase_cons_head, hr]
    exact ⟨by simp [h1], rfl, rfl, List.nodup_nil, rfl⟩
  | j :: k :: rest =>
    have hne0 : ¬ l.len = 0 := by
      rw [hlen]; simp only [List.length_cons]; push_cast; omega
    have hne1 : ¬ l.len = 1 := by
      rw [hlen]; simp only [List.length_cons]; push_cast; omega
    have hf : l.front = some j := by simpa using hfront
    by_cases hej : e = j
    · -- `elem` is the front node
      subst hej
      rw [show dseg l.nodes none (e :: k :: rest) none =
          (nodeOk l.nodes none e (some k) && dseg l.nodes (some e) (k :: rest) none)
          from rfl, Bool.and_eq_true] at hseg
      obtain ⟨nj, hgj, hjp, hjn⟩ := nodeOk_eq hseg.1
      have hseg2 : nodeOk l.nodes (some e) k (headOr rest none) = true ∧
          dseg l.nodes (some k) rest none = true := by
        rw [show dseg l.nodes (some e) (k :: rest) none =
            (nodeOk l.nodes (some e) k (headOr rest none) &&
              dseg l.nodes (some k) rest none) from rfl, Bool.and_eq_true] at hseg
        exact hseg.2
      obtain ⟨nk, hgk, hkp, hkn⟩ := nodeOk_eq hseg2.1
      have hr : remove l e =
          { l with
            nodes := updAt l.nodes k (fun n => { n with prev := none }),
            front := some k, len := l.len - 1 } := by
        simp [remove, hne0, hne1, hf, getN, hgj, hjn, setPrev]
      have hknotrest : k ∉ rest := (List.nodup_cons.mp ((List.nodup_cons.mp hnd).2)).1
      rw [List.erase_cons_head, hr]
      refine ⟨?_, rfl, ?_, (List.nodup_cons.mp hnd).2, ?_⟩
      · show l.len - 1 = ((k :: rest).length : Int)
        rw [hlen]; simp only [List.length_cons]; push_cast; ring
      · show l.back = (k :: rest).getLast?
        rw [hback]; simp only [List.getLast?_cons_cons]
      · rw [show dseg (updAt l.nodes k (fun n => { n with prev := none })) none
            (k :: rest) none =
            (nodeOk (updAt l.nodes k (fun n => { n with prev := none })) none k
              (headOr rest none) &&
              dseg (updAt l.nodes k (fun n => { n with prev := none })) (some k)
                rest none) from rfl, Bool.and_eq_true]
        constructor
        · have hgk' : (updAt l.nodes k (fun n => { n with prev := none }))[k]? =
              some { nk with prev := none } := by
            rw [getElem?_updAt_self, hgk]
            rfl
          exact nodeOk_intro hgk' rfl hkn
        · rw [dseg_updAt_not_mem _ _ hknotrest]
          exact hseg2.2
    · -- `elem` is further down the list
      have he' : e ∈ k :: rest := by
        rcases List.mem_cons.mp he with h | h
        · exact absurd h hej
        · exact h
      obtain ⟨xs, ys, hxy⟩ := List.append_of_mem he'
      have hids : j :: k :: rest = (j :: xs) ++ e :: ys := by rw [hxy]; rfl
      rw [hids] at hseg hnd hlen hback ⊢
      have heXS : e ∉ j :: xs := by
        have := List.nodup_append.mp hnd
        exact fun hm => (this.2.2 hm) (List.mem_cons_self e ys)
      have heys : e ∉ ys := by
        have := List.nodup_append.mp hnd
        exact (List.nodup_cons.mp this.2.1).1
      obtain ⟨XS0, p, hXSc⟩ : ∃ L b, j :: xs = L ++ [b] := by
        rcases List.eq_nil_or_concat (j :: xs) with h | ⟨L, b, h⟩
        · exact absurd h (by simp)
        · exact ⟨L, b, by simpa using h⟩
      have hfrontfalse : ¬ (some e = l.front) := by
        rw [hf]
        simp [hej]
      have hpXS : p ∈ j :: xs := by rw [hXSc]; simp
      have hpe : p ≠ e := fun h => heXS (h ▸ hpXS)
      rw [hXSc] at hseg
      rw [dseg_append] at hseg
      rw [dseg_append, lastOr_concat] at hseg
      rw [Bool.and_eq_true, Bool.and_eq_true] at hseg
      obtain ⟨⟨hsegXS0, hsegp⟩, hsegE⟩ := hseg
      have hsegp' : nodeOk l.nodes (lastOr none XS0) p
          (headOr (e :: ys) none) = true := by
        simpa [dseg] using hsegp
      obtain ⟨np, hgp, hpp, hpn⟩ := nodeOk_eq hsegp'
      rw [show dseg l.nodes (some p) (e :: ys) none =
          (nodeOk l.nodes (some p) e (headOr ys none) &&
            dseg l.nodes (some e) ys none) from rfl, Bool.and_eq_true] at hsegE
      obtain ⟨ne, hge, hep, hen⟩ := nodeOk_eq hsegE.1
      cases ys with
      | nil =>
        -- `elem` is the back node
        have hbacksome : l.back = some e := by
          rw [hback, List.getLast?_concat]
        have hr : remove l e =
            { l with
              nodes := updAt l.nodes p (fun n => { n with next := none }),
              back := some p, len := l.len - 1 } := by
          have hepr : ne.prev = some p := hep
          simp [remove, hne0, hne1, hfrontfalse, hbacksome, getN, hge, hepr, setNext]
        have herase : ((j :: xs) ++ [e]).erase e = j :: xs := by
          rw [List.erase_append_right _ heXS, List.erase_cons_head, List.append_nil]
        rw [herase, hr]
        have hXSnodup : (j :: xs).Nodup := (List.nodup_append.mp hnd).1
        have hpXS0 : p ∉ XS0 := by
          rw [hXSc] at hXSnodup
          have := List.nodup_append.mp hXSnodup
          exact fun hm => (this.2.2 hm) (List.mem_cons_self p [])
        refine ⟨?_, ?_, ?_, hXSnodup, ?_⟩
        · show l.len - 1 = (((j :: xs)).length : Int)
          rw [hlen]; simp only [List.length_append, List.length_cons, List.length_nil]
          push_cast; ring
        · show l.front = (j :: xs).head?
          rw [hf]; rfl
        · show some p = (j :: xs).getLast?
          rw [hXSc, List.getLast?_concat]
        · rw [hXSc, dseg_append, Bool.and_eq_true]
          constructor
          · rw [dseg_updAt_not_mem _ _ hpXS0]
            exact hsegXS0
          · rw [show dseg (updAt l.nodes p (fun n => { n with next := none }))
                (lastOr none XS0) [p] none =
                (nodeOk (updAt l.nodes p (fun n => { n with next := none }))
                  (lastOr none XS0) p none && true) from rfl, Bool.and_true]
            have hgp' : (updAt l.nodes p (fun n => { n with next := none }))[p]? =
                some { np with next := none } := by
              rw [getElem?_updAt_self, hgp]
              rfl
            exact nodeOk_intro hgp' hpp rfl
      | cons q ys0 =>
        -- `elem` is an interior node
        have hbackfalse : ¬ (some e = l.back) := by
          rw [hback, List.getLast?_append_cons, List.getLast?_cons_cons]
          intro h
          exact heys (mem_cons_getLast? h.symm)
        have hXSnodup : (j :: xs).Nodup := (List.nodup_append.mp hnd).1
        have hdisj : (j :: xs).Disjoint (e :: q :: ys0) := (List.nodup_append.mp hnd).2.2
        have hpq : p ≠ q := fun h => (hdisj hpXS) (by
          rw [h]
          exact List.mem_cons_of_mem e (List.mem_cons_self q ys0))
        have hpys0 : p ∉ ys0 := fun hm =>
          (hdisj hpXS) (List.mem_cons_of_mem e (List.mem_cons_of_mem q hm))
        have hpXS0 : p ∉ XS0 := by
          rw [hXSc] at hXSnodup
          have := List.nodup_append.mp hXSnodup
          exact fun hm => (this.2.2 hm) (List.mem_cons_self p [])
        have hqXS0 : q ∉ XS0 := fun hm => (hdisj (by
          rw [hXSc]; exact List.mem_append_left _ hm))
          (List.mem_cons_of_mem e (List.mem_cons_self q ys0))
        have hqys0 : q ∉ ys0 := by
          have := (List.nodup_append.mp hnd).2.1
          exact (List.nodup_cons.mp (List.nodup_cons.mp this).2).1
        have hqe : q ≠ e := by
          have := (List.nodup_append.mp hnd).2.1
          intro h
          exact (List.nodup_cons.mp this).1 (h ▸ List.mem_cons_self q ys0)
        rw [show headOr (q :: ys0) none = some q from rfl] at hsegE
        obtain ⟨nq, hgq, hqp, hqn⟩ := nodeOk_eq (by
          rw [show dseg l.nodes (some e) (q :: ys0) none =
              (nodeOk l.nodes (some e) q (headOr ys0 none) &&
                dseg l.nodes (some q) ys0 none) from rfl,
            Bool.and_eq_true] at hsegE
          exact hsegE.2.1)
        have hsegys0 : dseg l.nodes (some q) ys0 none = true := by
          rw [show dseg l.nodes (some e) (q :: ys0) none =
              (nodeOk l.nodes (some e) q (headOr ys0 none) &&
                dseg l.nodes (some q) ys0 none) from rfl,
            Bool.and_eq_true] at hsegE
          exact hsegE.2.2
        have hstep1 : (updAt l.nodes p (fun n => { n with next := some q }))[e]? =
            some ne := by
          rw [getElem?_updAt_ne _ _ hpe, hge]
        have hr : remove l e =
            { l with
              nodes := updAt (updAt l.nodes p
                (fun n => { n with next := some q })) q
                (fun n => { n with prev := some p }),
              len := l.len - 1 } := by
          have hepr : ne.prev = some p := hep
          have henx : ne.next = some q := hen
          simp [remove, hne0, hne1, hfrontfalse, hbackfalse, getN, hge, hepr, henx,
            hstep1, setNext, setPrev]
        have herase : ((j :: xs) ++ e :: q :: ys0).erase e = (j :: xs) ++ q :: ys0 := by
          rw [List.erase_append_right _ heXS, List.erase_cons_head]
        rw [herase, hr]
        refine ⟨?_, ?_, ?_, ?_, ?_⟩
        · show l.len - 1 = (((j :: xs) ++ q :: ys0).length : Int)
          rw [hlen]
          simp only [List.length_append, List.length_cons]
          push_cast; ring
        · show l.front = ((j :: xs) ++ q :: ys0).head?
          rw [hf]; rfl
        · show l.back = ((j :: xs) ++ q :: ys0).getLast?
          rw [hback, List.getLast?_append_cons, List.getLast?_cons_cons,
            List.getLast?_append_cons]
        · exact (List.Sublist.append_left (List.sublist_cons_self e (q :: ys0))
            (j :: xs)).nodup hnd
        · rw [dseg_append, hXSc, lastOr_concat, dseg_append,
            Bool.and_eq_true, Bool.and_eq_true]
          refine ⟨⟨?_, ?_⟩, ?_⟩
          · rw [dseg_updAt_not_mem _ _ hqXS0, dseg_updAt_not_mem _ _ hpXS0]
            rw [show headOr [p] (headOr (q :: ys0) none) = some p from rfl]
            exact hsegXS0
          · rw [show dseg (updAt (updAt l.nodes p (fun n => { n with next := some q }))
                q (fun n => { n with prev := some p })) (lastOr none XS0) [p]
                (headOr (q :: ys0) none) =
                (nodeOk (updAt (updAt l.nodes p (fun n => { n with next := some q }))
                  q (fun n => { n with prev := some p })) (lastOr none XS0) p
                  (some q) && true) from rfl, Bool.and_true]
            have hgp' : (updAt (updAt l.nodes p (fun n => { n with next := some q }))
                q (fun n => { n with prev := some p }))[p]? =
                some { np with next := some q } := by
              rw [getElem?_updAt_ne _ _ (Ne.symm hpq), getElem?_updAt_self, hgp]
              rfl
            exact nodeOk_intro hgp' hpp rfl
          · rw [show dseg (updAt (updAt l.nodes p (fun n => { n with next := some q }))
                q (fun n => { n with prev := some p })) (some p) (q :: ys0) none =
                (nodeOk (updAt (updAt l.nodes p (fun n => { n with next := some q }))
                  q (fun n => { n with prev := some p })) (some p) q
                  (headOr ys0 none) &&
                  dseg (updAt (updAt l.nodes p (fun n => { n with next := some q }))
                    q (fun n => { n with prev := some p })) (some q) ys0 none)
                from rfl, Bool.and_eq_true]
            constructor
            · have hgq' : (updAt (updAt l.nodes p (fun n => { n with next := some q }))
                  q (fun n => { n with prev := some p }))[q]? =
                  some { nq with prev := some p } := by
                rw [getElem?_updAt_self, getElem?_updAt_ne _ _ hpq, hgq]
                rfl
              exact nodeOk_intro hgq' rfl hqn
            · rw [dseg_updAt_not_mem _ _ hqys0, dseg_updAt_not_mem _ _ hpys0]
              exact hsegys0

theorem mem_ids_lt {l : GoList V} {ids : List Nat} (hrep : listRep l ids)
    {e : Nat} (he : e ∈ ids) : e < l.nodes.length :=
  mem_lt_of_dseg hrep.2.2.2.2 he

theorem fresh_not_mem {l : GoList V} {ids : List Nat} (hrep : listRep l ids) :
    l.nodes.length ∉ ids :=
  fun hm => lt_irrefl _ (mem_ids_lt hrep hm)

theorem pushFront_rep {l : GoList V} {ids : List Nat} (hrep : listRep l ids) (v : V) :
    listRep (pushFront l v).1 (l.nodes.length :: ids) ∧
      (pushFront l v).2 = l.nodes.length := by
  refine ⟨?_, rfl⟩
  have hext := listRep_extend hrep (⟨v, none, none⟩ : Node V)
  exact pushFrontLogic_rep hext (by simp) (fresh_not_mem hrep)

theorem moveToFront_rep {l : GoList V} {ids : List Nat} (hrep : listRep l ids)
    {e : Nat} (he : e ∈ ids) : listRep (moveToFront l e) (e :: ids.erase e) := by
  have h1 := remove_rep hrep he
  have hlt : e < (remove l e).nodes.length := by
    rw [nodes_length_remove]
    exact mem_ids_lt hrep he
  exact pushFrontLogic_rep h1 hlt hrep.2.2.2.1.not_mem_erase

theorem pushBack_rep {l : GoList V} {ids : List Nat} (hrep : listRep l ids) (v : V) :
    listRep (pushBack l v).1 (ids ++ [l.nodes.length]) ∧
      (pushBack l v).2 = l.nodes.length := by
  obtain ⟨hlen, hfront, hback, hnd, hseg⟩ := hrep
  refine ⟨?_, rfl⟩
  have hgm : (l.nodes ++ [(⟨v, none, none⟩ : Node V)])[l.nodes.length]? =
      some ⟨v, none, none⟩ := List.getElem?_concat_length _ _
  match ids with
  | [] =>
    have h0 : l.len = 0 := by simpa using hlen
    have hr : (pushBack l v).1 =
        { l with
          nodes := l.nodes ++ [(⟨v, none, none⟩ : Node V)],
          front := some l.nodes.length, back := some l.nodes.length,
          len := l.len + 1 } := by
      simp [pushBack, h0]
    rw [hr]
    refine ⟨by simp [h0], rfl, rfl, by simp, ?_⟩
    rw [show dseg (l.nodes ++ [(⟨v, none, none⟩ : Node V)]) none
        ([] ++ [l.nodes.length]) none =
        (nodeOk (l.nodes ++ [(⟨v, none, none⟩ : Node V)]) none l.nodes.length none &&
          true) from rfl, Bool.and_true]
    exact nodeOk_intro hgm rfl rfl
  | [j] =>
    have h1 : l.len = 1 := by simpa using hlen
    have hne0 : ¬ l.len = 0 := by rw [h1]; norm_num
    have hfj : l.front = some j := by simpa using hfront
    have hj : j < l.nodes.length := mem_lt_of_dseg hseg (by simp)
    have hij : l.nodes.length ≠ j := fun h => lt_irrefl _ (h ▸ hj)
    obtain ⟨nj, hgj, hjp, hjn⟩ := nodeOk_eq (by simpa [dseg] using hseg)
    have hgj0 : (l.nodes ++ [(⟨v, none, none⟩ : Node V)])[j]? = some nj := by
      rw [List.getElem?_append_left hj, hgj]
    have hr : (pushBack l v).1 =
        { l with
          nodes := updAt (updAt (l.nodes ++ [(⟨v, none, none⟩ : Node V)])
            l.nodes.length (fun n => { n with prev := l.front })) j
            (fun n => { n with next := some l.nodes.length }),
          back := some l.nodes.length, len := l.len + 1 } := by
      simp [pushBack, hne0, h1, hfj, setNext, setPrev]
    have harena : (pushBack l v).1.nodes =
        updAt (updAt (l.nodes ++ [(⟨v, none, none⟩ : Node V)])
          l.nodes.length (fun n => { n with prev := l.front })) j
          (fun n => { n with next := some l.nodes.length }) := by
      rw [hr]
    have hgi' : (pushBack l v).1.nodes[l.nodes.length]? =
        some { value := v, next := none, prev := some j } := by
      rw [harena]
      rw [getElem?_updAt_ne _ _ (Ne.symm hij), getElem?_updAt_self, hgm, hfj]
      rfl
    have hgj' : (pushBack l v).1.nodes[j]? =
        some { nj with next := some l.nodes.length } := by
      rw [harena]
      rw [getElem?_updAt_self, getElem?_updAt_ne _ _ hij, hgj0]
      rfl
    rw [show ([j] ++ [l.nodes.length]) = j :: [l.nodes.length] from rfl]
    refine ⟨?_, ?_, ?_, ?_, ?_⟩
    · rw [hr]; show l.len + 1 = _; rw [h1]; simp
    · rw [hr]; show l.front = _; rw [hfj]; rfl
    · rw [hr]; show some l.nodes.length = [j, l.nodes.length].getLast?; simp
    · simp [Ne.symm hij]
    · rw [show dseg (pushBack l v).1.nodes none (j :: [l.nodes.length]) none =
          (nodeOk (pushBack l v).1.nodes none j (some l.nodes.length) &&
            (nodeOk (pushBack l v).1.nodes (some j) l.nodes.length none && true))
          from rfl, Bool.and_true, Bool.and_eq_true]
      exact ⟨nodeOk_intro hgj' (by simp [hjp]) rfl, nodeOk_intro hgi' rfl rfl⟩
  | j :: k :: rest =>
    have hne0 : ¬ l.len = 0 := by
      rw [hlen]; simp only [List.length_cons]; push_cast; omega
    have hne1 : ¬ l.len = 1 := by
      rw [hlen]; simp only [List.length_cons]; push_cast; omega
    obtain ⟨IDS0, b, hconc⟩ : ∃ L c, j :: k :: rest = L ++ [c] := by
      rcases List.eq_nil_or_concat (j :: k :: rest) with h | ⟨L, c, h⟩
      · exact absurd h (by simp)
      · exact ⟨L, c, by simpa using h⟩
    have hbmem : b ∈ j :: k :: rest := by rw [hconc]; simp
    have hb : b < l.nodes.length := mem_lt_of_dseg hseg hbmem
    have hib : l.nodes.length ≠ b := fun h => lt_irrefl _ (h ▸ hb)
    have hbsome : l.back = some b := by rw [hback, hconc, List.getLast?_concat]
    have hfreshmem : ∀ a ∈ j :: k :: rest, a < l.nodes.length :=
      fun a ha => mem_lt_of_dseg hseg ha
    have hbIDS0 : b ∉ IDS0 := by
      have := hnd
      rw [hconc, List.nodup_append] at this
      exact fun hm => (this.2.2 hm) (List.mem_cons_self b [])
    rw [hconc] at hseg
    rw [dseg_append, Bool.and_eq_true] at hseg
    obtain ⟨hsegIDS0, hsegb⟩ := hseg
    obtain ⟨nb, hgb, hbp, hbn⟩ := nodeOk_eq (by simpa [dseg] using hsegb)
    have hgb0 : (l.nodes ++ [(⟨v, none, none⟩ : Node V)])[b]? = some nb := by
      rw [List.getElem?_append_left hb, hgb]
    have hr : (pushBack l v).1 =
        { l with
          nodes := updAt (updAt (l.nodes ++ [(⟨v, none, none⟩ : Node V)])
            b (fun n => { n with next := some l.nodes.length })) l.nodes.length
            (fun n => { n with prev := some b }),
          back := some l.nodes.length, len := l.len + 1 } := by
      simp [pushBack, hne0, hne1, hbsome, setNext, setPrev]
    have harena : (pushBack l v).1.nodes =
        updAt (updAt (l.nodes ++ [(⟨v, none, none⟩ : Node V)])
          b (fun n => { n with next := some l.nodes.length })) l.nodes.length
          (fun n => { n with prev := some b }) := by
      rw [hr]
    have hgi' : (pushBack l v).1.nodes[l.nodes.length]? =
        some { value := v, next := none, prev := some b } := by
      rw [harena]
      rw [getElem?_updAt_self, getElem?_updAt_ne _ _ (Ne.symm hib), hgm]
      rfl
    have hgb' : (pushBack l v).1.nodes[b]? =
        some { nb with next := some l.nodes.length } := by
      rw [harena]
      rw [getElem?_updAt_ne _ _ hib, getElem?_updAt_self, hgb0]
      rfl
    have hIDS0lt : ∀ a ∈ IDS0, a < l.nodes.length := by
      intro a ha
      exact hfreshmem a (by rw [hconc]; exact List.mem_append_left _ ha)
    have hiIDS0 : l.nodes.length ∉ IDS0 := fun hm => lt_irrefl _ (hIDS0lt _ hm)
    refine ⟨?_, ?_, ?_, ?_, ?_⟩
    · rw [hr]; show l.len + 1 = _
      rw [hlen]
      simp only [List.length_append, List.length_cons, List.length_nil]
      push_cast; ring
    · rw [hr]; show l.front = _
      rw [hfront]
      rfl
    · rw [hr]; show some l.nodes.length = _
      rw [List.getLast?_concat]
    · rw [List.nodup_append]
      refine ⟨hnd, by simp, ?_⟩
      intro a ha
      simp only [List.mem_singleton]
      exact fun h => lt_irrefl _ (h ▸ hfreshmem a ha)
    · rw [hconc, List.append_assoc]
      rw [dseg_append, Bool.and_eq_true]
      constructor
      · rw [show (pushBack l v).1.nodes = _ from harena]
        show dseg _ none IDS0 (headOr ([b] ++ [l.nodes.length]) none) = true
        rw [dseg_updAt_not_mem _ _ hiIDS0, dseg_updAt_not_mem _ _ hbIDS0,
          dseg_arena_append hIDS0lt]
        exact hsegIDS0
      · rw [show ([b] ++ [l.nodes.length]) = b :: [l.nodes.length] from rfl]
        rw [show dseg (pushBack l v).1.nodes (lastOr none IDS0)
            (b :: [l.nodes.length]) none =
            (nodeOk (pushBack l v).1.nodes (lastOr none IDS0) b
              (some l.nodes.length) &&
              (nodeOk (pushBack l v).1.nodes (some b) l.nodes.length none && true))
            from rfl, Bool.and_true, Bool.and_eq_true]
        refine ⟨nodeOk_intro hgb' ?_ rfl, nodeOk_intro hgi' rfl rfl⟩
        show nb.prev = lastOr none IDS0
        exact hbp

/-! ## The LRU cache (`cache.go`) -/

/-- `cacheListItem` in `cache.go`: the key/value pair stored in a list node. -/
structure CacheItem (K V : Type) where
  key : K
  value : V
deriving Repr, DecidableEq

/-- `lruCache` in `cache.go`: the capacity (a Go `int`), the queue of
cache items (most-recently-used at the front) and the key-to-node map.
The `sync.Mutex` field has no sequential content and is not modelled;
see the concurrency discussion in the spec. -/
structure LruCache (K V : Type) where
  capacity : Int
  queue : GoList (CacheItem K V)
  items : List (K × Nat)
deriving Repr, DecidableEq

/-- Lookup in the Go map `c.items`, modelled as an association list with
unique keys. -/
def mapLookup [DecidableEq K] : List (K × Nat) → K → Option Nat
  | [], _ => none
  | (k', n) :: rest, k => if k' = k then some n else mapLookup rest k

/-- Go map assignment `m[k] = n`: replace if present, append otherwise. -/
def mapInsert [DecidableEq K] : List (K × Nat) → K → Nat → List (K × Nat)
  | [], k, n => [(k, n)]
  | (k', n') :: rest, k, n =>
    if k' = k then (k, n) :: rest else (k', n') :: mapInsert rest k n

/-- Go `delete(m, k)`. -/
def mapDelete [DecidableEq K] (m : List (K × Nat)) (k : K) : List (K × Nat) :=
  m.filter (fun p => decide (p.1 ≠ k))

/-- `NewCache` in `cache.go`: `nil` (here `none`) when `capacity < 1`,
otherwise a cache with an empty queue and an empty map. -/
def NewCache (K V : Type) [DecidableEq K] (capacity : Int) :
    Option (LruCache K V) :=
  if capacity < 1 then none
  else some { capacity := capacity, queue := newList (CacheItem K V), items := [] }

/-- `Set` in `cache.go`.  Returns the updated cache and the `bool` result.
On a hit: overwrite the node value, move it to the front, return `true`.
On a miss: push a fresh front node, insert it into the map, and if the
queue length now exceeds the capacity, delete the back node's key from the
map and remove the back node; return `false`.  The `none` fall-through
branches correspond to Go nil dereferences, unreachable when the queue is
non-empty at eviction time. -/
def Set [DecidableEq K] (c : LruCache K V) (key : K) (value : V) :
    LruCache K V × Bool :=
  let listItem : CacheItem K V := ⟨key, value⟩
  match mapLookup c.items key with
  | some v =>
    let q1 : GoList (CacheItem K V) :=
      { c.queue with
        nodes := updAt c.queue.nodes v (fun n => { n with value := listItem }) }
    ({ c with queue := moveToFront q1 v }, true)
  | none =>
    let r := pushFront c.queue listItem
    let items1 := mapInsert c.items key r.2
    if Len r.1 > c.capacity then
      match Back r.1 with
      | some b =>
        let items2 :=
          match getN r.1 b with
          | some n => mapDelete items1 n.value.key
          | none => items1
        ({ c with queue := remove r.1 b, items := items2 }, false)
      | none => ({ c with queue := r.1, items := items1 }, false)
    else
      ({ c with queue := r.1, items := items1 }, false)

/-- `Get` in `cache.go`.  On a hit: move the node to the front and return
its stored value with `true`; on a miss: return the zero value (modelled
as `default`) with `false`. -/
def Get [DecidableEq K] [Inhabited V] (c : LruCache K V) (key : K) :
    LruCache K V × V × Bool :=
  match mapLookup c.items key with
  | some v =>
    let q1 := moveToFront c.queue v
    match getN q1 v with
    | some n => ({ c with queue := q1 }, n.value.value, true)
    | none => ({ c with queue := q1 }, default, true)
  | none => (c, default, false)

/-- `Clear` in `cache.go`: fresh empty queue and map, capacity retained. -/
def Clear (c : LruCache K V) : LruCache K V :=
  { c with queue := newList (CacheItem K V), items := [] }

/-! ## The cache representation invariant

A cache state is abstracted by the chain `ids` of its queue and the
front-to-back list `abs` of key/value pairs stored in those nodes;
the map `items` holds exactly the pairs `(key, node)` of the chain. -/

/-- The key/value pair stored in the node at arena index `i`. -/
def entryAt (q : GoList (CacheItem K V)) (i : Nat) : Option (K × V) :=
  ((valMap q)[i]?).map (fun cv => (cv.key, cv.value))

/-- The association pairs `(key, node index)` of an abstract cache state. -/
def assocOf (ids : List Nat) (abs : List (K × V)) : List (K × Nat) :=
  (List.zip ids abs).map (fun p => (p.2.1, p.1))

/-- `c` concretely represents the abstract state `abs` through chain `ids`. -/
def cacheRep [DecidableEq K] (c : LruCache K V) (ids : List Nat)
    (abs : List (K × V)) : Prop :=
  listRep c.queue ids ∧
  ids.length = abs.length ∧
  (∀ p ∈ List.zip ids abs, entryAt c.queue p.1 = some p.2) ∧
  (abs.map Prod.fst).Nodup ∧
  c.items.Perm (assocOf ids abs)

instance [DecidableEq K] [DecidableEq V] (c : LruCache K V) (ids : List Nat)
    (abs : List (K × V)) : Decidable (cacheRep c ids abs) := by
  unfold cacheRep; infer_instance

/-! ## Lemmas about the map model -/

theorem mapLookup_perm [DecidableEq K] {m1 m2 : List (K × Nat)} (h : m1.Perm m2)
    (hnd : (m1.map Prod.fst).Nodup) (k : K) : mapLookup m1 k = mapLookup m2 k := by
  induction h with
  | nil => rfl
  | cons x h ih =>
    obtain ⟨k', n⟩ := x
    simp only [mapLookup]
    by_cases hk : k' = k
    · simp [hk]
    · rw [if_neg hk, if_neg hk]
      exact ih (List.nodup_cons.mp (by simpa using hnd)).2
  | swap x y l =>
    obtain ⟨ka, na⟩ := x
    obtain ⟨kb, nb⟩ := y
    simp only [List.map_cons] at hnd
    have hne : kb ≠ ka := (List.nodup_cons.mp hnd).1 ∘ (by
      intro h
      exact h ▸ List.mem_cons_self ka _)
    simp only [mapLookup]
    by_cases ha : ka = k
    · by_cases hb : kb = k
      · exact absurd (hb.trans ha.symm) hne
      · simp [ha, hb]
    · by_cases hb : kb = k
      · simp [ha, hb]
      · simp [ha, hb]
  | trans h1 _ ih1 ih2 =>
    rw [ih1 hnd, ih2 (((h1.map Prod.fst).nodup_iff).mp hnd)]

theorem mapInsert_absent [DecidableEq K] {m : List (K × Nat)} {k : K}
    (h : mapLookup m k = none) (n : Nat) : mapInsert m k n = m ++ [(k, n)] := by
  induction m with
  | nil => rfl
  | cons p rest ih =>
    obtain ⟨k', n'⟩ := p
    simp only [mapLookup] at h
    by_cases hk : k' = k
    · rw [if_pos hk] at h; cases h
    · rw [if_neg hk] at h
      simp only [mapInsert, if_neg hk, List.cons_append, List.cons.injEq, true_and]
      exact ih h

theorem mapDelete_not_mem [DecidableEq K] {m : List (K × Nat)} {k : K}
    (h : k ∉ m.map Prod.fst) : mapDelete m k = m := by
  induction m with
  | nil => rfl
  | cons p rest ih =>
    simp only [List.map_cons, List.mem_cons] at h
    push_neg at h
    simp only [mapDelete, List.filter_cons]
    rw [if_pos (by simpa using (Ne.symm h.1))]
    rw [show List.filter (fun p => decide (p.1 ≠ k)) rest = mapDelete rest k from rfl,
      ih h.2]

theorem mapDelete_perm [DecidableEq K] {m1 m2 : List (K × Nat)} (h : m1.Perm m2)
    (k : K) : (mapDelete m1 k).Perm (mapDelete m2 k) := h.filter _

theorem mapDelete_append [DecidableEq K] (m1 m2 : List (K × Nat)) (k : K) :
    mapDelete (m1 ++ m2) k = mapDelete m1 k ++ mapDelete m2 k := by
  simp [mapDelete]

/-- The index the map must associate to key `k` in a represented state. -/
def keyIndex [DecidableEq K] : List Nat → List (K × V) → K → Option Nat
  | i :: ids, kv :: abs, k => if kv.1 = k then some i else keyIndex ids abs k
  | _, _, _ => none

theorem mapLookup_assocOf [DecidableEq K] (ids : List Nat) (abs : List (K × V))
    (k : K) : mapLookup (assocOf ids abs) k = keyIndex ids abs k := by
  induction ids generalizing abs with
  | nil => cases abs <;> rfl
  | cons i ids ih =>
    cases abs with
    | nil => rfl
    | cons kv abs =>
      simp only [assocOf, List.zip_cons_cons, List.map_cons, mapLookup, keyIndex]
      by_cases hk : kv.1 = k
      · rw [if_pos hk, if_pos hk]
      · rw [if_neg hk, if_neg hk]
        exact ih abs

theorem assocOf_keys [DecidableEq K] {ids : List Nat} {abs : List (K × V)}
    (h : ids.length = abs.length) :
    (assocOf ids abs).map Prod.fst = abs.map Prod.fst := by
  induction ids generalizing abs with
  | nil => cases abs with
    | nil => rfl
    | cons kv abs => cases h
  | cons i ids ih =>
    cases abs with
    | nil => cases h
    | cons kv abs =>
      have h' : ids.length = abs.length := by simpa using h
      simp only [assocOf, List.zip_cons_cons, List.map_cons]
      show kv.1 :: (assocOf ids abs).map Prod.fst = kv.1 :: abs.map Prod.fst
      rw [ih h']

theorem keyIndex_eq_none [DecidableEq K] {abs : List (K × V)} {k : K}
    (h : k ∉ abs.map Prod.fst) (ids : List Nat) : keyIndex ids abs k = none := by
  induction ids generalizing abs with
  | nil => cases abs <;> rfl
  | cons i ids ih =>
    cases abs with
    | nil => rfl
    | cons kv abs =>
      simp only [List.map_cons, List.mem_cons] at h
      push_neg at h
      simp only [keyIndex]
      rw [if_neg (Ne.symm h.1)]
      exact ih h.2

theorem keyIndex_append [DecidableEq K] {is : List Nat} {xs : List (K × V)}
    (hlen : is.length = xs.length) {k : K} (hk : k ∉ xs.map Prod.fst)
    (i : Nat) (w : V) (js : List Nat) (ys : List (K × V)) :
    keyIndex (is ++ i :: js) (xs ++ (k, w) :: ys) k = some i := by
  induction is generalizing xs with
  | nil =>
    cases xs with
    | nil => simp [keyIndex]
    | cons kv xs => cases hlen
  | cons a is ih =>
    cases xs with
    | nil => cases hlen
    | cons kv xs =>
      simp only [List.map_cons, List.mem_cons] at hk
      push_neg at hk
      simp only [List.cons_append, keyIndex, List.append_eq]
      rw [if_neg (Ne.symm hk.1)]
      exact ih (by simpa using hlen) hk.2

/-- In a represented cache the map lookup is determined by `ids`/`abs`. -/
theorem rep_lookup [DecidableEq K] {c : LruCache K V} {ids : List Nat}
    {abs : List (K × V)} (hrep : cacheRep c ids abs) (k : K) :
    mapLookup c.items k = keyIndex ids abs k := by
  obtain ⟨_, hlen, _, hnd, hperm⟩ := hrep
  have hkeys : c.items.map Prod.fst |>.Nodup := by
    rw [((hperm.map Prod.fst).nodup_iff)]
    rw [assocOf_keys hlen]
    exact hnd
  rw [mapLookup_perm hperm hkeys, mapLookup_assocOf]

/-! ## Entry and link-preservation helpers -/

theorem dseg_updAt_keep_links {V : Type} {f : Node V → Node V}
    (hf : ∀ n, (f n).prev = n.prev ∧ (f n).next = n.next)
    (ns : List (Node V)) (i : Nat) (ids : List Nat) (pv nx : Option Nat) :
    dseg (updAt ns i f) pv ids nx = dseg ns pv ids nx := by
  induction ids generalizing pv with
  | nil => rfl
  | cons j rest ih =>
    simp only [dseg, ih]
    congr 1
    unfold nodeOk
    by_cases hij : i = j
    · subst hij
      rw [getElem?_updAt_self]
      cases h : ns[i]? with
      | none => rfl
      | some n => simp [(hf n).1, (hf n).2]
    · rw [getElem?_updAt_ne _ _ hij]

theorem listRep_updAt_value {K V : Type} {l : GoList (CacheItem K V)}
    {ids : List Nat} (h : listRep l ids) (i : Nat) (cv : CacheItem K V) :
    listRep { l with nodes := updAt l.nodes i (fun n => { n with value := cv }) }
      ids := by
  obtain ⟨hlen, hfront, hback, hnd, hseg⟩ := h
  refine ⟨hlen, hfront, hback, hnd, ?_⟩
  show dseg (updAt l.nodes i _) none ids none = true
  rw [dseg_updAt_keep_links (f := fun n => { n with value := cv })
    (fun n => ⟨rfl, rfl⟩)]
  exact hseg

theorem entryAt_congr {K V : Type} {q1 q2 : GoList (CacheItem K V)}
    (h : valMap q1 = valMap q2) (i : Nat) : entryAt q1 i = entryAt q2 i := by
  unfold entryAt
  rw [h]

theorem entryAt_moveToFront {K V : Type} (q : GoList (CacheItem K V)) (e i : Nat) :
    entryAt (moveToFront q e) i = entryAt q i :=
  entryAt_congr (valMap_moveToFront q e) i

theorem entryAt_remove {K V : Type} (q : GoList (CacheItem K V)) (e i : Nat) :
    entryAt (remove q e) i = entryAt q i :=
  entryAt_congr (valMap_remove q e) i

theorem entryAt_updAt_value_self {K V : Type} {q : GoList (CacheItem K V)} {i : Nat}
    (hi : i < q.nodes.length) (cv : CacheItem K V) :
    entryAt { q with nodes := updAt q.nodes i (fun n => { n with value := cv }) } i =
      some (cv.key, cv.value) := by
  obtain ⟨n, hn⟩ : ∃ n, q.nodes[i]? = some n := ⟨q.nodes[i], List.getElem?_eq_getElem hi⟩
  show ((List.map Node.value (updAt q.nodes i _))[i]?).map _ = _
  rw [List.getElem?_map, getElem?_updAt_self, hn]
  rfl

theorem entryAt_updAt_value_ne {K V : Type} {q : GoList (CacheItem K V)} {i j : Nat}
    (hij : i ≠ j) (cv : CacheItem K V) :
    entryAt { q with nodes := updAt q.nodes i (fun n => { n with value := cv }) } j =
      entryAt q j := by
  show ((List.map Node.value (updAt q.nodes i _))[j]?).map _ =
    ((List.map Node.value q.nodes)[j]?).map _
  rw [List.getElem?_map, List.getElem?_map, getElem?_updAt_ne _ _ hij]

theorem entryAt_pushFront_fresh {K V : Type} (q : GoList (CacheItem K V))
    (cv : CacheItem K V) :
    entryAt (pushFront q cv).1 q.nodes.length = some (cv.key, cv.value) := by
  unfold entryAt
  rw [valMap_pushFront]
  rw [show (valMap q ++ [cv])[q.nodes.length]? = some cv from by
    have : (valMap q).length = q.nodes.length := by simp [valMap]
    rw [← this]
    exact List.getElem?_concat_length _ _]
  rfl

theorem entryAt_pushFront_old {K V : Type} (q : GoList (CacheItem K V))
    (cv : CacheItem K V) {j : Nat} (hj : j < q.nodes.length) :
    entryAt (pushFront q cv).1 j = entryAt q j := by
  unfold entryAt
  rw [valMap_pushFront]
  rw [List.getElem?_append_left (by simpa [valMap] using hj)]

theorem entryAt_elim {K V : Type} {q : GoList (CacheItem K V)} {i : Nat} {k : K}
    {w : V} (h : entryAt q i = some (k, w)) :
    ∃ n, q.nodes[i]? = some n ∧ n.value.key = k ∧ n.value.value = w := by
  unfold entryAt valMap at h
  rw [List.getElem?_map] at h
  cases hn : q.nodes[i]? with
  | none => rw [hn] at h; cases h
  | some n =>
    rw [hn] at h
    have h' : (n.value.key, n.value.value) = (k, w) := Option.some.inj h
    exact ⟨n, rfl, congrArg Prod.fst h', congrArg Prod.snd h'⟩

theorem assocOf_cons [DecidableEq K] (i : Nat) (ids : List Nat) (kv : K × V)
    (abs : List (K × V)) :
    assocOf (i :: ids) (kv :: abs) = (kv.1, i) :: assocOf ids abs := rfl

theorem assocOf_append [DecidableEq K] {is : List Nat} {xs : List (K × V)}
    (h : is.length = xs.length) (js : List Nat) (ys : List (K × V)) :
    assocOf (is ++ js) (xs ++ ys) = assocOf is xs ++ assocOf js ys := by
  unfold assocOf
  rw [List.zip_append h, List.map_append]

/-! ## Behaviour of the cache operations on represented states -/

theorem listRep_newList (V : Type) : listRep (newList V) [] :=
  ⟨by simp [newList], rfl, rfl, List.nodup_nil, rfl⟩

/-- `Clear` leads to the empty abstract state and keeps the capacity. -/
theorem Clear_rep [DecidableEq K] (c : LruCache K V) :
    cacheRep (Clear c) [] [] ∧ (Clear c).capacity = c.capacity :=
  ⟨⟨listRep_newList _, rfl, fun p hp => absurd hp (List.not_mem_nil p),
    List.nodup_nil, List.Perm.refl _⟩, rfl⟩

theorem NewCache_pos {K V : Type} [DecidableEq K] {cap : Int} (h : 1 ≤ cap) :
    NewCache K V cap = some ⟨cap, newList (CacheItem K V), []⟩ := by
  unfold NewCache
  rw [if_neg (by omega)]

theorem NewCache_neg {K V : Type} [DecidableEq K] {cap : Int} (h : cap < 1) :
    NewCache K V cap = none := by
  unfold NewCache
  rw [if_pos h]

/-- A freshly constructed cache represents the empty abstract state. -/
theorem NewCache_rep {K V : Type} [DecidableEq K] (cap : Int) :
    cacheRep (K := K) (V := V) ⟨cap, newList (CacheItem K V), []⟩ [] [] :=
  ⟨listRep_newList _, rfl, fun p hp => absurd hp (List.not_mem_nil p),
    List.nodup_nil, List.Perm.refl _⟩

/-- `Get` on an absent key: state unchanged, zero value, `false`. -/
theorem Get_absent [DecidableEq K] [Inhabited V] {c : LruCache K V} {k : K}
    (h : mapLookup c.items k = none) : Get c k = (c, default, false) := by
  simp [Get, h]

/-- `Set` on a present key `k` (sitting at position `|xs|` of the recency
order with node `i` and old value `w`): returns `true`, overwrites the
value, moves `k` to the front, and leaves the map and capacity alone. -/
theorem Set_present_rep [DecidableEq K] {c : LruCache K V}
    {is js : List Nat} {i : Nat} {xs ys : List (K × V)} {k : K} {w : V}
    (hrep : cacheRep c (is ++ i :: js) (xs ++ (k, w) :: ys))
    (hlenx : is.length = xs.length) (v : V) :
    (Set c k v).2 = true ∧
      cacheRep (Set c k v).1 (i :: (is ++ js)) ((k, v) :: (xs ++ ys)) ∧
      (Set c k v).1.capacity = c.capacity ∧
      (Set c k v).1.items = c.items := by
  obtain ⟨hlist, hlen, hentry, hnd, hperm⟩ := hrep
  have hndk := hnd
  rw [List.map_append, List.nodup_append] at hndk
  have hkxs : k ∉ xs.map Prod.fst := fun hm => (hndk.2.2 hm) (by simp)
  have hlook : mapLookup c.items k = some i := by
    rw [rep_lookup ⟨hlist, hlen, hentry, hnd, hperm⟩ k, keyIndex_append hlenx hkxs]
  have hcode : Set c k v =
      ({ c with
          queue := moveToFront
            { c.queue with
              nodes := updAt c.queue.nodes i
                (fun n => { n with value := (⟨k, v⟩ : CacheItem K V) }) } i },
        true) := by
    simp [Set, hlook]
  have hinodup : (is ++ i :: js).Nodup := hlist.2.2.2.1
  have hins : i ∉ is := by
    rw [List.nodup_append] at hinodup
    exact fun hm => (hinodup.2.2 hm) (List.mem_cons_self i js)
  have hierase : (is ++ i :: js).erase i = is ++ js := by
    rw [List.erase_append_right _ hins, List.erase_cons_head]
  have hq1 : listRep
      { c.queue with
        nodes := updAt c.queue.nodes i (fun n => { n with value := ⟨k, v⟩ }) }
      (is ++ i :: js) := listRep_updAt_value hlist i ⟨k, v⟩
  have hiin : i ∈ is ++ i :: js := List.mem_append_right is (List.mem_cons_self i js)
  have hilt : i < c.queue.nodes.length := mem_ids_lt hlist hiin
  have hq2 := moveToFront_rep hq1 hiin
  rw [hierase] at hq2
  have hzipold : List.zip (is ++ i :: js) (xs ++ (k, w) :: ys) =
      List.zip is xs ++ (i, (k, w)) :: List.zip js ys := by
    rw [List.zip_append hlenx, List.zip_cons_cons]
  have hlens : (is ++ i :: js).length = (xs ++ (k, w) :: ys).length := hlen
  rw [hcode]
  refine ⟨rfl, ⟨hq2, ?_, ?_, ?_, ?_⟩, rfl, rfl⟩
  · simp only [List.length_cons, List.length_append] at hlens ⊢
    omega
  · intro p hp
    rw [List.zip_cons_cons] at hp
    rcases List.mem_cons.mp hp with hph | hpt
    · subst hph
      rw [entryAt_moveToFront]
      exact entryAt_updAt_value_self hilt ⟨k, v⟩
    · have hmemz : p ∈ List.zip is xs ++ List.zip js ys := by
        rwa [List.zip_append hlenx] at hpt
      have hp1 : p.1 ∈ is ∨ p.1 ∈ js := by
        rcases List.mem_append.mp hmemz with hz | hz
        · exact Or.inl (List.of_mem_zip hz).1
        · exact Or.inr (List.of_mem_zip hz).1
      have hp1i : i ≠ p.1 := by
        rw [List.nodup_append] at hinodup
        rcases hp1 with hm | hm
        · exact fun he => (hinodup.2.2 (he ▸ hm)) (List.mem_cons_self i js)
        · have := (List.nodup_cons.mp hinodup.2.1).1
          exact fun he => this (he ▸ hm)
      have hpold : p ∈ List.zip (is ++ i :: js) (xs ++ (k, w) :: ys) := by
        rw [hzipold]
        rcases List.mem_append.mp hmemz with hz | hz
        · exact List.mem_append_left _ hz
        · exact List.mem_append_right _ (List.mem_cons_of_mem _ hz)
      rw [entryAt_moveToFront, entryAt_updAt_value_ne hp1i]
      exact hentry p hpold
  · show (k :: (xs ++ ys).map Prod.fst).Nodup
    have hpm : ((xs ++ (k, w) :: ys).map Prod.fst).Perm
        (k :: (xs ++ ys).map Prod.fst) := by
      rw [List.map_append, List.map_append, List.map_cons]
      exact List.perm_middle
    exact hpm.nodup hnd
  · show c.items.Perm (assocOf (i :: (is ++ js)) ((k, v) :: (xs ++ ys)))
    rw [show assocOf (i :: (is ++ js)) ((k, v) :: (xs ++ ys)) =
      (k, i) :: (assocOf is xs ++ assocOf js ys) from by
        rw [assocOf_cons, assocOf_append hlenx]]
    refine hperm.trans ?_
    rw [show assocOf (is ++ i :: js) (xs ++ (k, w) :: ys) =
      assocOf is xs ++ (k, i) :: assocOf js ys from by
        rw [assocOf_append hlenx, assocOf_cons]]
    exact List.perm_middle

/-- `Get` on a present key `k`: returns the stored value with `true` and
moves `k` to the front; map and capacity are untouched. -/
theorem Get_present_rep [DecidableEq K] [Inhabited V] {c : LruCache K V}
    {is js : List Nat} {i : Nat} {xs ys : List (K × V)} {k : K} {w : V}
    (hrep : cacheRep c (is ++ i :: js) (xs ++ (k, w) :: ys))
    (hlenx : is.length = xs.length) :
    (Get c k).2 = (w, true) ∧
      cacheRep (Get c k).1 (i :: (is ++ js)) ((k, w) :: (xs ++ ys)) ∧
      (Get c k).1.capacity = c.capacity ∧
      (Get c k).1.items = c.items := by
  obtain ⟨hlist, hlen, hentry, hnd, hperm⟩ := hrep
  have hndk := hnd
  rw [List.map_append, List.nodup_append] at hndk
  have hkxs : k ∉ xs.map Prod.fst := fun hm => (hndk.2.2 hm) (by simp)
  have hlook : mapLookup c.items k = some i := by
    rw [rep_lookup ⟨hlist, hlen, hentry, hnd, hperm⟩ k, keyIndex_append hlenx hkxs]
  have hzipold : List.zip (is ++ i :: js) (xs ++ (k, w) :: ys) =
      List.zip is xs ++ (i, (k, w)) :: List.zip js ys := by
    rw [List.zip_append hlenx, List.zip_cons_cons]
  have hiold : (i, (k, w)) ∈ List.zip (is ++ i :: js) (xs ++ (k, w) :: ys) := by
    rw [hzipold]
    exact List.mem_append_right _ (List.mem_cons_self _ _)
  have hei : entryAt (moveToFront c.queue i) i = some (k, w) := by
    rw [entryAt_moveToFront]
    exact hentry _ hiold
  obtain ⟨nb, hnb, hnbk, hnbv⟩ := entryAt_elim hei
  have hcode : Get c k = ({ c with queue := moveToFront c.queue i }, w, true) := by
    simp [Get, hlook, getN, hnb, hnbv]
  have hinodup : (is ++ i :: js).Nodup := hlist.2.2.2.1
  have hins : i ∉ is := by
    rw [List.nodup_append] at hinodup
    exact fun hm => (hinodup.2.2 hm) (List.mem_cons_self i js)
  have hierase : (is ++ i :: js).erase i = is ++ js := by
    rw [List.erase_append_right _ hins, List.erase_cons_head]
  have hiin : i ∈ is ++ i :: js := List.mem_append_right is (List.mem_cons_self i js)
  have hq2 := moveToFront_rep hlist hiin
  rw [hierase] at hq2
  have hlens : (is ++ i :: js).length = (xs ++ (k, w) :: ys).length := hlen
  rw [hcode]
  refine ⟨rfl, ⟨hq2, ?_, ?_, ?_, ?_⟩, rfl, rfl⟩
  · simp only [List.length_cons, List.length_append] at hlens ⊢
    omega
  · intro p hp
    rw [List.zip_cons_cons] at hp
    rcases List.mem_cons.mp hp with hph | hpt
    · subst hph
      rw [entryAt_moveToFront]
      exact hentry _ hiold
    · have hmemz : p ∈ List.zip is xs ++ List.zip js ys := by
        rwa [List.zip_append hlenx] at hpt
      have hpold : p ∈ List.zip (is ++ i :: js) (xs ++ (k, w) :: ys) := by
        rw [hzipold]
        rcases List.mem_append.mp hmemz with hz | hz
        · exact List.mem_append_left _ hz
        · exact List.mem_append_right _ (List.mem_cons_of_mem _ hz)
      rw [entryAt_moveToFront]
      exact hentry p hpold
  · show (k :: (xs ++ ys).map Prod.fst).Nodup
    have hpm : ((xs ++ (k, w) :: ys).map Prod.fst).Perm
        (k :: (xs ++ ys).map Prod.fst) := by
      rw [List.map_append, List.map_append, List.map_cons]
      exact List.perm_middle
    exact hpm.nodup hnd
  · show c.items.Perm (assocOf (i :: (is ++ js)) ((k, w) :: (xs ++ ys)))
    rw [show assocOf (i :: (is ++ js)) ((k, w) :: (xs ++ ys)) =
      (k, i) :: (assocOf is xs ++ assocOf js ys) from by
        rw [assocOf_cons, assocOf_append hlenx]]
    refine hperm.trans ?_
    rw [show assocOf (is ++ i :: js) (xs ++ (k, w) :: ys) =
      assocOf is xs ++ (k, i) :: assocOf js ys from by
        rw [assocOf_append hlenx, assocOf_cons]]
    exact List.perm_middle

/-- `Set` of an absent key with room to spare: returns `false`, pushes a
fresh front node and registers it in the map; nothing is evicted. -/
theorem Set_absent_nofull_rep [DecidableEq K] {c : LruCache K V} {ids : List Nat}
    {abs : List (K × V)} {k : K} (hrep : cacheRep c ids abs)
    (hk : k ∉ abs.map Prod.fst) (hcap : (ids.length : Int) + 1 ≤ c.capacity)
    (v : V) :
    (Set c k v).2 = false ∧
      cacheRep (Set c k v).1 (c.queue.nodes.length :: ids) ((k, v) :: abs) ∧
      (Set c k v).1.capacity = c.capacity := by
  obtain ⟨hlist, hlen, hentry, hnd, hperm⟩ := hrep
  have hlook : mapLookup c.items k = none := by
    rw [rep_lookup ⟨hlist, hlen, hentry, hnd, hperm⟩ k, keyIndex_eq_none hk]
  have hpf := (pushFront_rep hlist (⟨k, v⟩ : CacheItem K V)).1
  have hlen1 : (pushFront c.queue ⟨k, v⟩).1.len = (ids.length : Int) + 1 := by
    rw [hpf.1]
    simp only [List.length_cons]
    push_cast
    ring
  have hnogt : ¬ (Len (pushFront c.queue (⟨k, v⟩ : CacheItem K V)).1 > c.capacity) := by
    unfold Len
    rw [hlen1]
    omega
  have hcode : Set c k v =
      ({ c with
          queue := (pushFront c.queue ⟨k, v⟩).1,
          items := mapInsert c.items k (pushFront c.queue ⟨k, v⟩).2 }, false) := by
    simp [Set, hlook, hnogt]
  rw [hcode]
  refine ⟨rfl, ⟨hpf, ?_, ?_, ?_, ?_⟩, rfl⟩
  · simpa using hlen
  · intro p hp
    rw [List.zip_cons_cons] at hp
    rcases List.mem_cons.mp hp with hph | hpt
    · subst hph
      exact entryAt_pushFront_fresh c.queue ⟨k, v⟩
    · have hp1 : p.1 ∈ ids := (List.of_mem_zip hpt).1
      rw [entryAt_pushFront_old c.queue ⟨k, v⟩ (mem_ids_lt hlist hp1)]
      exact hentry p hpt
  · exact List.nodup_cons.mpr ⟨hk, hnd⟩
  · show (mapInsert c.items k (pushFront c.queue ⟨k, v⟩).2).Perm
      (assocOf (c.queue.nodes.length :: ids) ((k, v) :: abs))
    rw [(pushFront_rep hlist (⟨k, v⟩ : CacheItem K V)).2, mapInsert_absent hlook,
      assocOf_cons]
    exact (List.perm_append_singleton _ _).trans (hperm.cons _)

/-- `Set` of an absent key into a full cache: returns `false`, pushes a
fresh front node, and evicts exactly the back node — the least-recently
used entry `(bk, bv)` — from both the queue and the map. -/
theorem Set_absent_full_rep [DecidableEq K] {c : LruCache K V} {ids0 : List Nat}
    {b : Nat} {abs0 : List (K × V)} {bk : K} {bv : V} {k : K}
    (hrep : cacheRep c (ids0 ++ [b]) (abs0 ++ [(bk, bv)]))
    (hk : k ∉ (abs0 ++ [(bk, bv)]).map Prod.fst)
    (hcap : c.capacity < (ids0.length : Int) + 2) (v : V) :
    (Set c k v).2 = false ∧
      cacheRep (Set c k v).1 (c.queue.nodes.length :: ids0) ((k, v) :: abs0) ∧
      (Set c k v).1.capacity = c.capacity := by
  obtain ⟨hlist, hlen, hentry, hnd, hperm⟩ := hrep
  have hlook : mapLookup c.items k = none := by
    rw [rep_lookup ⟨hlist, hlen, hentry, hnd, hperm⟩ k, keyIndex_eq_none hk]
  have hlen0 : ids0.length = abs0.length := by
    simp only [List.length_append, List.length_cons, List.length_nil] at hlen
    omega
  have hpf := (pushFront_rep hlist (⟨k, v⟩ : CacheItem K V)).1
  have hlen1 : (pushFront c.queue ⟨k, v⟩).1.len = (ids0.length : Int) + 2 := by
    rw [hpf.1]
    simp only [List.length_cons, List.length_append, List.length_nil]
    push_cast
    ring
  have hgt : Len (pushFront c.queue (⟨k, v⟩ : CacheItem K V)).1 > c.capacity := by
    unfold Len
    rw [hlen1]
    omega
  have hback1 : (pushFront c.queue (⟨k, v⟩ : CacheItem K V)).1.back = some b := by
    rw [hpf.2.2.1]
    rw [show c.queue.nodes.length :: (ids0 ++ [b]) =
      (c.queue.nodes.length :: ids0) ++ [b] from rfl, List.getLast?_concat]
  have hbin : b ∈ ids0 ++ [b] := List.mem_append_right _ (List.mem_cons_self b [])
  have hblt : b < c.queue.nodes.length := mem_ids_lt hlist hbin
  have hbzip : (b, (bk, bv)) ∈ List.zip (ids0 ++ [b]) (abs0 ++ [(bk, bv)]) := by
    rw [List.zip_append hlen0]
    exact List.mem_append_right _ (List.mem_cons_self _ _)
  have heb : entryAt (pushFront c.queue (⟨k, v⟩ : CacheItem K V)).1 b =
      some (bk, bv) := by
    rw [entryAt_pushFront_old c.queue _ hblt]
    exact hentry _ hbzip
  obtain ⟨nb, hnb, hnbk, hnbv⟩ := entryAt_elim heb
  have hcode : Set c k v =
      ({ c with
          queue := remove (pushFront c.queue ⟨k, v⟩).1 b,
          items := mapDelete
            (mapInsert c.items k (pushFront c.queue ⟨k, v⟩).2) bk }, false) := by
    simp [Set, hlook, hgt, Back, hback1, getN, hnb, hnbk]
  have hndabs := hnd
  rw [List.map_append, List.nodup_append] at hndabs
  have hbk0 : bk ∉ abs0.map Prod.fst := by
    intro hm
    exact (hndabs.2.2 hm) (by simp)
  have hkbk : k ≠ bk := by
    intro he
    exact hk (by
      rw [List.map_append]
      exact List.mem_append_right _ (by simp [he]))
  have hkabs0 : k ∉ abs0.map Prod.fst := by
    intro hm
    exact hk (by
      rw [List.map_append]
      exact List.mem_append_left _ hm)
  -- the removed chain
  have hbnd : (ids0 ++ [b]).Nodup := hlist.2.2.2.1
  have hbids0 : b ∉ ids0 := by
    rw [List.nodup_append] at hbnd
    exact fun hm => (hbnd.2.2 hm) (List.mem_cons_self b [])
  have hbfresh : b ≠ c.queue.nodes.length := fun h => lt_irrefl _ (h ▸ hblt)
  have herase : (c.queue.nodes.length :: (ids0 ++ [b])).erase b =
      c.queue.nodes.length :: ids0 := by
    rw [List.erase_cons_tail (by simp [Ne.symm hbfresh]),
      List.erase_append_right _ hbids0, List.erase_cons_head, List.append_nil]
  have hbin1 : b ∈ c.queue.nodes.length :: (ids0 ++ [b]) :=
    List.mem_cons_of_mem _ hbin
  have hq2 := remove_rep hpf hbin1
  rw [herase] at hq2
  rw [hcode]
  refine ⟨rfl, ⟨hq2, ?_, ?_, ?_, ?_⟩, rfl⟩
  · simpa using hlen0
  · intro p hp
    rw [List.zip_cons_cons] at hp
    rcases List.mem_cons.mp hp with hph | hpt
    · subst hph
      rw [entryAt_remove]
      exact entryAt_pushFront_fresh c.queue ⟨k, v⟩
    · have hp1 : p.1 ∈ ids0 := (List.of_mem_zip hpt).1
      have hpold : p ∈ List.zip (ids0 ++ [b]) (abs0 ++ [(bk, bv)]) := by
        rw [List.zip_append hlen0]
        exact List.mem_append_left _ hpt
      rw [entryAt_remove,
        entryAt_pushFront_old c.queue _ (mem_ids_lt hlist (List.mem_append_left _ hp1))]
      exact hentry p hpold
  · exact List.nodup_cons.mpr ⟨hkabs0, hndabs.1⟩
  · show (mapDelete (mapInsert c.items k (pushFront c.queue ⟨k, v⟩).2) bk).Perm
      (assocOf (c.queue.nodes.length :: ids0) ((k, v) :: abs0))
    rw [(pushFront_rep hlist (⟨k, v⟩ : CacheItem K V)).2, mapInsert_absent hlook,
      assocOf_cons]
    have hstep1 : (mapDelete (c.items ++ [(k, c.queue.nodes.length)]) bk).Perm
        (mapDelete ((k, c.queue.nodes.length) :: c.items) bk) :=
      mapDelete_perm (List.perm_append_singleton _ _) bk
    have hstep2 : mapDelete ((k, c.queue.nodes.length) :: c.items) bk =
        (k, c.queue.nodes.length) :: mapDelete c.items bk := by
      show List.filter _ _ = _
      rw [List.filter_cons]
      rw [if_pos (by simpa using hkbk)]
      rfl
    have hstep3 : (mapDelete c.items bk).Perm
        (mapDelete (assocOf (ids0 ++ [b]) (abs0 ++ [(bk, bv)])) bk) :=
      mapDelete_perm hperm bk
    have hstep4 : mapDelete (assocOf (ids0 ++ [b]) (abs0 ++ [(bk, bv)])) bk =
        assocOf ids0 abs0 := by
      rw [assocOf_append hlen0, mapDelete_append]
      rw [mapDelete_not_mem (by rw [assocOf_keys hlen0]; exact hbk0)]
      rw [show mapDelete (assocOf [b] [(bk, bv)]) bk = [] from by
        simp [assocOf, mapDelete]]
      rw [List.append_nil]
    exact hstep1.trans (by
      rw [hstep2]
      exact (hstep3.trans (by rw [hstep4])).cons _)

/-! ## Client operation sequences and the reachable-state invariant -/

/-- One client call of the public cache interface. -/
inductive Op (K V : Type) where
  | set (k : K) (v : V)
  | get (k : K)
  | clear
deriving Repr, DecidableEq

/-- Execute one call, keeping the resulting cache state. -/
def step [DecidableEq K] [Inhabited V] (c : LruCache K V) : Op K V → LruCache K V
  | .set k v => (Set c k v).1
  | .get k => (Get c k).1
  | .clear => Clear c

/-- Execute a sequence of calls from state `c`. -/
def runOps [DecidableEq K] [Inhabited V] (c : LruCache K V)
    (ops : List (Op K V)) : LruCache K V :=
  ops.foldl step c

/-- The invariant of every reachable cache state: positive capacity and a
represented abstract state of size at most the capacity. -/
def CacheWF [DecidableEq K] (c : LruCache K V) : Prop :=
  1 ≤ c.capacity ∧ ∃ ids abs, cacheRep c ids abs ∧ (abs.length : Int) ≤ c.capacity

/-- Split an abstract state at the (unique) occurrence of a present key,
splitting the chain at the corresponding node. -/
theorem rep_decompose {K V : Type} {ids : List Nat} {abs : List (K × V)} {k : K}
    (hlen : ids.length = abs.length) (hk : k ∈ abs.map Prod.fst) :
    ∃ is i js xs w ys, ids = is ++ i :: js ∧ abs = xs ++ (k, w) :: ys ∧
      is.length = xs.length := by
  induction abs generalizing ids with
  | nil => cases hk
  | cons kv abs ih =>
    cases ids with
    | nil => cases hlen
    | cons i ids =>
      by_cases hke : kv.1 = k
      · exact ⟨[], i, ids, [], kv.2, abs, by simp, by
          simp only [List.nil_append]
          rw [show (k, kv.2) = kv from by rw [← hke]], rfl⟩
      · have hk' : k ∈ abs.map Prod.fst := by
          rcases List.mem_cons.mp hk with h | h
          · exact absurd h.symm hke
          · exact h
        obtain ⟨is, i', js, xs, w, ys, h1, h2, h3⟩ := ih (by simpa using hlen) hk'
        exact ⟨i :: is, i', js, kv :: xs, w, ys, by rw [h1]; rfl, by rw [h2]; rfl,
          by simpa using h3⟩

theorem concat_decompose {K V : Type} {ids : List Nat} {abs : List (K × V)}
    (hlen : ids.length = abs.length) (hne : abs ≠ []) :
    ∃ ids0 b abs0 bk bv, ids = ids0 ++ [b] ∧ abs = abs0 ++ [(bk, bv)] ∧
      ids0.length = abs0.length := by
  obtain ⟨abs0, bkv, habs⟩ : ∃ L c, abs = L ++ [c] := by
    rcases List.eq_nil_or_concat abs with h | ⟨L, c, h⟩
    · exact absurd h hne
    · exact ⟨L, c, by simpa using h⟩
  have hids_ne : ids ≠ [] := by
    intro h
    rw [h, habs] at hlen
    simp at hlen
  obtain ⟨ids0, b, hids⟩ : ∃ L c, ids = L ++ [c] := by
    rcases List.eq_nil_or_concat ids with h | ⟨L, c, h⟩
    · exact absurd h hids_ne
    · exact ⟨L, c, by simpa using h⟩
  refine ⟨ids0, b, abs0, bkv.1, bkv.2, hids, by rw [habs], ?_⟩
  rw [hids, habs] at hlen
  simpa using hlen

/-- Every public call preserves the invariant. -/
theorem step_wf [DecidableEq K] [Inhabited V] {c : LruCache K V}
    (hwf : CacheWF c) (op : Op K V) : CacheWF (step c op) := by
  obtain ⟨hcap, ids, abs, hrep, hsize⟩ := hwf
  cases op with
  | clear =>
    show CacheWF (Clear c)
    exact ⟨by rw [(Clear_rep c).2]; exact hcap, [], [],
      (Clear_rep c).1, by rw [(Clear_rep c).2]; simp; omega⟩
  | get k =>
    by_cases hk : k ∈ abs.map Prod.fst
    · obtain ⟨is, i, js, xs, w, ys, h1, h2, h3⟩ := rep_decompose hrep.2.1 hk
      rw [h1, h2] at hrep
      obtain ⟨_, hrep', hc, _⟩ := Get_present_rep hrep h3
      show CacheWF (Get c k).1
      refine ⟨by rw [hc]; exact hcap, _, _, hrep', ?_⟩
      rw [hc]
      refine le_trans ?_ hsize
      rw [h2]
      simp only [List.length_cons, List.length_append]
      push_cast
      omega
    · have hlook : mapLookup c.items k = none := by
        rw [rep_lookup hrep k, keyIndex_eq_none hk]
      show CacheWF (Get c k).1
      rw [Get_absent hlook]
      exact ⟨hcap, ids, abs, hrep, hsize⟩
  | set k v =>
    by_cases hk : k ∈ abs.map Prod.fst
    · obtain ⟨is, i, js, xs, w, ys, h1, h2, h3⟩ := rep_decompose hrep.2.1 hk
      rw [h1, h2] at hrep
      obtain ⟨_, hrep', hc, _⟩ := Set_present_rep hrep h3 v
      show CacheWF (Set c k v).1
      refine ⟨by rw [hc]; exact hcap, _, _, hrep', ?_⟩
      rw [hc]
      refine le_trans ?_ hsize
      rw [h2]
      simp only [List.length_cons, List.length_append]
      push_cast
      omega
    · by_cases hfits : (ids.length : Int) + 1 ≤ c.capacity
      · obtain ⟨hfalse, hrep', hc⟩ := Set_absent_nofull_rep hrep hk hfits v
        show CacheWF (Set c k v).1
        refine ⟨by rw [hc]; exact hcap, _, _, hrep', ?_⟩
        rw [hc]
        simp only [List.length_cons]
        push_cast
        rw [hrep.2.1] at hfits
        omega
      · have hlenz : ids.length = abs.length := hrep.2.1
        have habs_ne : abs ≠ [] := by
          intro h
          rw [h] at hlenz
          have hids0 : ids = [] := List.length_eq_zero.mp (by simpa using hlenz)
          rw [hids0] at hfits
          simp only [List.length_nil] at hfits
          omega
        obtain ⟨ids0, b, abs0, bk, bv, h1, h2, h3⟩ := concat_decompose hlenz habs_ne
        rw [h1, h2] at hrep
        rw [h2] at hk
        have hcap2 : c.capacity < (ids0.length : Int) + 2 := by
          rw [h1] at hfits
          simp only [List.length_append, List.length_cons, List.length_nil] at hfits
          push_cast at hfits
          omega
        obtain ⟨hfalse, hrep', hc⟩ := Set_absent_full_rep hrep hk hcap2 v
        show CacheWF (Set c k v).1
        refine ⟨by rw [hc]; exact hcap, _, _, hrep', ?_⟩
        rw [hc]
        have : (abs.length : Int) ≤ c.capacity := hsize
        rw [h2] at this
        simp only [List.length_cons, List.length_append, List.length_nil] at this ⊢
        push_cast at this ⊢
        have h3' : (ids0.length : Int) = (abs0.length : Int) := by exact_mod_cast h3
        omega

/-- Sequences of public calls preserve the invariant. -/
theorem runOps_wf [DecidableEq K] [Inhabited V] {c : LruCache K V}
    (hwf : CacheWF c) (ops : List (Op K V)) : CacheWF (runOps c ops) := by
  induction ops generalizing c with
  | nil => exact hwf
  | cons op ops ih => exact ih (step_wf hwf op)

/-! ## Tracking the value bound to one key -/

/-- The value the cache currently binds to `k`, read through the map. -/
def lookVal [DecidableEq K] (c : LruCache K V) (k : K) : Option V :=
  match mapLookup c.items k with
  | some i => (entryAt c.queue i).map Prod.snd
  | none => none

/-- The value an abstract state binds to `k`. -/
def absLookup [DecidableEq K] (abs : List (K × V)) (k : K) : Option V :=
  (abs.find? (fun p => p.1 = k)).map Prod.snd

theorem keyIndex_entry_eq [DecidableEq K] {q : GoList (CacheItem K V)}
    {ids : List Nat} {abs : List (K × V)} (hlen : ids.length = abs.length)
    (hent : ∀ p ∈ List.zip ids abs, entryAt q p.1 = some p.2) (k : K) :
    (match keyIndex ids abs k with
     | some i => (entryAt q i).map Prod.snd
     | none => none) = absLookup abs k := by
  induction ids generalizing abs with
  | nil =>
    cases abs with
    | nil => rfl
    | cons kv abs => cases hlen
  | cons i ids ih =>
    cases abs with
    | nil => cases hlen
    | cons kv abs =>
      have hhead : entryAt q i = some kv :=
        hent (i, kv) (by rw [List.zip_cons_cons]; exact List.mem_cons_self _ _)
      by_cases hk : kv.1 = k
      · simp only [keyIndex, if_pos hk, absLookup]
        rw [List.find?_cons_of_pos _ (by simpa using hk), hhead]
      · simp only [keyIndex, if_neg hk, absLookup]
        rw [List.find?_cons_of_neg _ (by simpa using hk)]
        exact ih (by simpa using hlen) (fun p hp =>
          hent p (by rw [List.zip_cons_cons]; exact List.mem_cons_of_mem _ hp))

/-- In a represented cache, `lookVal` reads the abstract state. -/
theorem lookVal_rep [DecidableEq K] {c : LruCache K V} {ids : List Nat}
    {abs : List (K × V)} (hrep : cacheRep c ids abs) (k : K) :
    lookVal c k = absLookup abs k := by
  unfold lookVal
  rw [rep_lookup hrep k]
  exact keyIndex_entry_eq hrep.2.1 hrep.2.2.1 k

theorem absLookup_cons_self [DecidableEq K] (k : K) (v : V) (L : List (K × V)) :
    absLookup ((k, v) :: L) k = some v := by
  unfold absLookup
  rw [List.find?_cons_of_pos _ (by simp)]
  rfl

theorem absLookup_cons_ne [DecidableEq K] {q : K} {k : K} (h : q ≠ k) (v : V)
    (L : List (K × V)) : absLookup ((q, v) :: L) k = absLookup L k := by
  unfold absLookup
  rw [List.find?_cons_of_neg _ (by simpa using h)]

theorem absLookup_middle [DecidableEq K] {q : K} {k : K} (h : q ≠ k) (w : V)
    (xs ys : List (K × V)) :
    absLookup (xs ++ (q, w) :: ys) k = absLookup (xs ++ ys) k := by
  induction xs with
  | nil => exact absLookup_cons_ne h w ys
  | cons p xs ih =>
    unfold absLookup
    rw [List.cons_append, List.cons_append, List.find?_cons, List.find?_cons]
    cases hp : (decide (p.1 = k)) with
    | true => rfl
    | false => exact ih

theorem absLookup_present [DecidableEq K] {k : K} {xs : List (K × V)}
    (h : k ∉ xs.map Prod.fst) (w : V) (ys : List (K × V)) :
    absLookup (xs ++ (k, w) :: ys) k = some w := by
  induction xs with
  | nil => exact absLookup_cons_self k w ys
  | cons p xs ih =>
    simp only [List.map_cons, List.mem_cons] at h
    push_neg at h
    unfold absLookup
    rw [List.cons_append, List.find?_cons_of_neg _ (by simpa using Ne.symm h.1)]
    exact ih h.2

theorem absLookup_absent [DecidableEq K] {k : K} {abs : List (K × V)}
    (h : k ∉ abs.map Prod.fst) : absLookup abs k = none := by
  induction abs with
  | nil => rfl
  | cons p abs ih =>
    simp only [List.map_cons, List.mem_cons] at h
    push_neg at h
    unfold absLookup
    rw [List.find?_cons_of_neg _ (by simpa using Ne.symm h.1)]
    exact ih h.2

theorem keyIndex_some_mem [DecidableEq K] {ids : List Nat} {abs : List (K × V)}
    {k : K} {i : Nat} (h : keyIndex ids abs k = some i) :
    ∃ w, (i, (k, w)) ∈ List.zip ids abs := by
  induction ids generalizing abs with
  | nil => cases abs <;> cases h
  | cons j ids ih =>
    cases abs with
    | nil => cases h
    | cons kv abs =>
      by_cases hk : kv.1 = k
      · rw [keyIndex, if_pos hk] at h
        refine ⟨kv.2, ?_⟩
        rw [List.zip_cons_cons]
        have : (i, (k, kv.2)) = (j, kv) := by
          rw [← hk]
          cases h
          rfl
        rw [this]
        exact List.mem_cons_self _ _
      · rw [keyIndex, if_neg hk] at h
        obtain ⟨w, hw⟩ := ih h
        exact ⟨w, by rw [List.zip_cons_cons]; exact List.mem_cons_of_mem _ hw⟩

/-- Under the invariant, the map lookup and the tracked value agree on
definedness. -/
theorem lookVal_none_iff [DecidableEq K] {c : LruCache K V}
    (hwf : CacheWF c) (k : K) :
    (lookVal c k = none ↔ mapLookup c.items k = none) := by
  obtain ⟨-, ids, abs, hrep, -⟩ := hwf
  constructor
  · intro h
    cases hm : mapLookup c.items k with
    | none => rfl
    | some i =>
      exfalso
      have hki : keyIndex ids abs k = some i := by
        rw [← rep_lookup hrep k]
        exact hm
      obtain ⟨w, hw⟩ := keyIndex_some_mem hki
      have hent : entryAt c.queue i = some (k, w) := hrep.2.2.1 _ hw
      have hv : lookVal c k = some w := by
        unfold lookVal
        rw [hm]
        show (entryAt c.queue i).map Prod.snd = some w
        rw [hent]
        rfl
      rw [h] at hv
      cases hv
  · intro h
    unfold lookVal
    rw [h]

theorem keys_sub_of_append {K V : Type} {k : K} {xs ys : List (K × V)}
    (h : k ∉ (xs ++ ys).map Prod.fst) (q : K) (w : V) (hq : q ≠ k) :
    k ∉ ((q, w) :: (xs ++ ys)).map Prod.fst := by
  simp only [List.map_cons, List.mem_cons]
  push_neg
  exact ⟨Ne.symm hq, h⟩

theorem not_mem_keys_drop_middle {K V : Type} {k : K} {xs ys : List (K × V)}
    (q : K) (w : V) (h : k ∉ (xs ++ (q, w) :: ys).map Prod.fst) :
    k ∉ (xs ++ ys).map Prod.fst := by
  simp only [List.map_append, List.mem_append, List.map_cons, List.mem_cons] at h ⊢
  push_neg at h ⊢
  exact ⟨h.1, h.2.2⟩

/-- One call that is not a `Set` of `k` either keeps `k`'s value or drops
the binding (eviction or `Clear`); it never changes it to another value. -/
theorem step_val [DecidableEq K] [Inhabited V] {c : LruCache K V}
    (hwf : CacheWF c) {k : K} {v : V} (hv : lookVal c k = some v) (op : Op K V)
    (hop : ∀ v', op ≠ Op.set k v') :
    lookVal (step c op) k = some v ∨ lookVal (step c op) k = none := by
  obtain ⟨hcap, ids, abs, hrep, hsize⟩ := hwf
  have hvabs : absLookup abs k = some v := by
    rw [← lookVal_rep hrep k]
    exact hv
  cases op with
  | clear => exact Or.inr rfl
  | get k' =>
    by_cases hk' : k' ∈ abs.map Prod.fst
    · obtain ⟨is, i, js, xs, w, ys, h1, h2, h3⟩ := rep_decompose hrep.2.1 hk'
      have hndk := hrep.2.2.2.1
      rw [h2, List.map_append, List.nodup_append] at hndk
      have hk'xs : k' ∉ xs.map Prod.fst := fun hm => (hndk.2.2 hm) (by simp)
      rw [h1, h2] at hrep
      obtain ⟨-, hrep', -, -⟩ := Get_present_rep hrep h3
      left
      show lookVal (Get c k').1 k = some v
      rw [lookVal_rep hrep' k]
      rw [h2] at hvabs
      by_cases hkk : k' = k
      · subst hkk
        rw [absLookup_present hk'xs w ys] at hvabs
        rw [absLookup_cons_self]
        exact hvabs
      · rw [absLookup_cons_ne hkk, ← absLookup_middle hkk w xs ys]
        exact hvabs
    · have hlook : mapLookup c.items k' = none := by
        rw [rep_lookup hrep k', keyIndex_eq_none hk']
      left
      show lookVal (Get c k').1 k = some v
      rw [Get_absent hlook]
      exact hv
  | set k' v' =>
    have hkk : k' ≠ k := fun he => (hop v') (by rw [he])
    by_cases hk' : k' ∈ abs.map Prod.fst
    · obtain ⟨is, i, js, xs, w, ys, h1, h2, h3⟩ := rep_decompose hrep.2.1 hk'
      rw [h1, h2] at hrep
      obtain ⟨-, hrep', -, -⟩ := Set_present_rep hrep h3 v'
      left
      show lookVal (Set c k' v').1 k = some v
      rw [lookVal_rep hrep' k, absLookup_cons_ne hkk, ← absLookup_middle hkk w xs ys,
        ← h2]
      exact hvabs
    · by_cases hfits : (ids.length : Int) + 1 ≤ c.capacity
      · obtain ⟨-, hrep', -⟩ := Set_absent_nofull_rep hrep hk' hfits v'
        left
        show lookVal (Set c k' v').1 k = some v
        rw [lookVal_rep hrep' k, absLookup_cons_ne hkk]
        exact hvabs
      · have hlenz : ids.length = abs.length := hrep.2.1
        have habs_ne : abs ≠ [] := by
          intro h
          rw [h] at hlenz
          have hids0 : ids = [] := List.length_eq_zero.mp (by simpa using hlenz)
          rw [hids0] at hfits
          simp only [List.length_nil] at hfits
          omega
        obtain ⟨ids0, b, abs0, bk, bv, h1, h2, h3⟩ := concat_decompose hlenz habs_ne
        have hndk := hrep.2.2.2.1
        rw [h2, List.map_append, List.nodup_append] at hndk
        have hbk0 : bk ∉ abs0.map Prod.fst := fun hm => (hndk.2.2 hm) (by simp)
        rw [h1, h2] at hrep
        rw [h2] at hk'
        have hcap2 : c.capacity < (ids0.length : Int) + 2 := by
          rw [h1] at hfits
          simp only [List.length_append, List.length_cons, List.length_nil] at hfits
          push_cast at hfits
          omega
        obtain ⟨-, hrep', -⟩ := Set_absent_full_rep hrep hk' hcap2 v'
        by_cases hkbk : k = bk
        · right
          show lookVal (Set c k' v').1 k = none
          rw [lookVal_rep hrep' k, absLookup_cons_ne hkk]
          exact absLookup_absent (hkbk ▸ hbk0)
        · left
          show lookVal (Set c k' v').1 k = some v
          rw [lookVal_rep hrep' k, absLookup_cons_ne hkk]
          rw [h2] at hvabs
          have hmid := absLookup_middle (k := k) (Ne.symm hkbk) bv abs0 []
          rw [List.append_nil] at hmid
          rw [← hmid]
          exact hvabs

/-- A dropped binding stays dropped while no `Set` of `k` occurs. -/
theorem step_val_none [DecidableEq K] [Inhabited V] {c : LruCache K V}
    (hwf : CacheWF c) {k : K} (hv : lookVal c k = none) (op : Op K V)
    (hop : ∀ v', op ≠ Op.set k v') :
    lookVal (step c op) k = none := by
  obtain ⟨hcap, ids, abs, hrep, hsize⟩ := hwf
  have hvabs : absLookup abs k = none := by
    rw [← lookVal_rep hrep k]
    exact hv
  have hknot : k ∉ abs.map Prod.fst := by
    intro hkm
    obtain ⟨is, i, js, xs, w, ys, h1, h2, h3⟩ := rep_decompose hrep.2.1 hkm
    have hndk := hrep.2.2.2.1
    rw [h2, List.map_append, List.nodup_append] at hndk
    have hkxs : k ∉ xs.map Prod.fst := fun hm => (hndk.2.2 hm) (by simp)
    rw [h2, absLookup_present hkxs w ys] at hvabs
    cases hvabs
  cases op with
  | clear => rfl
  | get k' =>
    by_cases hk' : k' ∈ abs.map Prod.fst
    · obtain ⟨is, i, js, xs, w, ys, h1, h2, h3⟩ := rep_decompose hrep.2.1 hk'
      have hkk : k' ≠ k := by
        intro he
        exact hknot (he ▸ hk')
      rw [h1, h2] at hrep
      obtain ⟨-, hrep', -, -⟩ := Get_present_rep hrep h3
      show lookVal (Get c k').1 k = none
      rw [lookVal_rep hrep' k, absLookup_cons_ne hkk]
      exact absLookup_absent (not_mem_keys_drop_middle k' w (h2 ▸ hknot))
    · have hlook : mapLookup c.items k' = none := by
        rw [rep_lookup hrep k', keyIndex_eq_none hk']
      show lookVal (Get c k').1 k = none
      rw [Get_absent hlook]
      exact hv
  | set k' v' =>
    have hkk : k' ≠ k := fun he => (hop v') (by rw [he])
    by_cases hk' : k' ∈ abs.map Prod.fst
    · obtain ⟨is, i, js, xs, w, ys, h1, h2, h3⟩ := rep_decompose hrep.2.1 hk'
      rw [h1, h2] at hrep
      obtain ⟨-, hrep', -, -⟩ := Set_present_rep hrep h3 v'
      show lookVal (Set c k' v').1 k = none
      rw [lookVal_rep hrep' k, absLookup_cons_ne hkk]
      exact absLookup_absent (not_mem_keys_drop_middle k' w (h2 ▸ hknot))
    · by_cases hfits : (ids.length : Int) + 1 ≤ c.capacity
      · obtain ⟨-, hrep', -⟩ := Set_absent_nofull_rep hrep hk' hfits v'
        show lookVal (Set c k' v').1 k = none
        rw [lookVal_rep hrep' k, absLookup_cons_ne hkk]
        exact absLookup_absent hknot
      · have hlenz : ids.length = abs.length := hrep.2.1
        have habs_ne : abs ≠ [] := by
          intro h
          rw [h] at hlenz
          have hids0 : ids = [] := List.length_eq_zero.mp (by simpa using hlenz)
          rw [hids0] at hfits
          simp only [List.length_nil] at hfits
          omega
        obtain ⟨ids0, b, abs0, bk, bv, h1, h2, h3⟩ := concat_decompose hlenz habs_ne
        rw [h1, h2] at hrep
        rw [h2] at hk'
        have hcap2 : c.capacity < (ids0.length : Int) + 2 := by
          rw [h1] at hfits
          simp only [List.length_append, List.length_cons, List.length_nil] at hfits
          push_cast at hfits
          omega
        obtain ⟨-, hrep', -⟩ := Set_absent_full_rep hrep hk' hcap2 v'
        show lookVal (Set c k' v').1 k = none
        rw [lookVal_rep hrep' k, absLookup_cons_ne hkk]
        refine absLookup_absent ?_
        rw [h2] at hknot
        intro hm
        apply hknot
        rw [List.map_append]
        exact List.mem_append_left _ hm

theorem runOps_val_none [DecidableEq K] [Inhabited V] {c : LruCache K V}
    (hwf : CacheWF c) {k : K} (hv : lookVal c k = none) {ops : List (Op K V)}
    (hops : ∀ op ∈ ops, ∀ v', op ≠ Op.set k v') :
    lookVal (runOps c ops) k = none := by
  induction ops generalizing c with
  | nil => exact hv
  | cons op ops ih =>
    exact ih (step_wf hwf op)
      (step_val_none hwf hv op (hops op (List.mem_cons_self _ _)))
      (fun o hm => hops o (List.mem_cons_of_mem _ hm))

/-- Over any sequence without a `Set` of `k`, the binding of `k` is either
still the original value or gone. -/
theorem runOps_val [DecidableEq K] [Inhabited V] {c : LruCache K V}
    (hwf : CacheWF c) {k : K} {v : V} (hv : lookVal c k = some v)
    {ops : List (Op K V)} (hops : ∀ op ∈ ops, ∀ v', op ≠ Op.set k v') :
    lookVal (runOps c ops) k = some v ∨ lookVal (runOps c ops) k = none := by
  induction ops generalizing c with
  | nil => exact Or.inl hv
  | cons op ops ih =>
    have hop := hops op (List.mem_cons_self _ _)
    have hops' := fun o hm => hops o (List.mem_cons_of_mem _ hm)
    rcases step_val ⟨hwf.1, hwf.2⟩ hv op hop with h | h
    · exact ih (step_wf hwf op) h hops'
    · exact Or.inr (runOps_val_none (step_wf hwf op) h hops')

/-- Immediately after `Set c k v`, key `k` is bound to `v`. -/
theorem Set_lookVal [DecidableEq K] {c : LruCache K V} (hwf : CacheWF c)
    (k : K) (v : V) : lookVal (Set c k v).1 k = some v := by
  obtain ⟨hcap, ids, abs, hrep, hsize⟩ := hwf
  by_cases hk : k ∈ abs.map Prod.fst
  · obtain ⟨is, i, js, xs, w, ys, h1, h2, h3⟩ := rep_decompose hrep.2.1 hk
    rw [h1, h2] at hrep
    obtain ⟨-, hrep', -, -⟩ := Set_present_rep hrep h3 v
    rw [lookVal_rep hrep' k, absLookup_cons_self]
  · by_cases hfits : (ids.length : Int) + 1 ≤ c.capacity
    · obtain ⟨-, hrep', -⟩ := Set_absent_nofull_rep hrep hk hfits v
      rw [lookVal_rep hrep' k, absLookup_cons_self]
    · have hlenz : ids.length = abs.length := hrep.2.1
      have habs_ne : abs ≠ [] := by
        intro h
        rw [h] at hlenz
        have hids0 : ids = [] := List.length_eq_zero.mp (by simpa using hlenz)
        rw [hids0] at hfits
        simp only [List.length_nil] at hfits
        omega
      obtain ⟨ids0, b, abs0, bk, bv, h1, h2, h3⟩ := concat_decompose hlenz habs_ne
      rw [h1, h2] at hrep
      rw [h2] at hk
      have hcap2 : c.capacity < (ids0.length : Int) + 2 := by
        rw [h1] at hfits
        simp only [List.length_append, List.length_cons, List.length_nil] at hfits
        push_cast at hfits
        omega
      obtain ⟨-, hrep', -⟩ := Set_absent_full_rep hrep hk hcap2 v
      rw [lookVal_rep hrep' k, absLookup_cons_self]

/-- `Get` returns exactly the tracked value when one is bound. -/
theorem Get_hit_of_lookVal [DecidableEq K] [Inhabited V] {c : LruCache K V}
    {k : K} {w : V} (h : lookVal c k = some w) : (Get c k).2 = (w, true) := by
  unfold lookVal at h
  cases hm : mapLookup c.items k with
  | none => rw [hm] at h; cases h
  | some i =>
    rw [hm] at h
    have h' : (entryAt c.queue i).map Prod.snd = some w := h
    cases he : entryAt c.queue i with
    | none => rw [he] at h'; cases h'
    | some kw =>
      rw [he] at h'
      have hw : kw.2 = w := Option.some.inj h'
      have he2 : entryAt (moveToFront c.queue i) i = some (kw.1, kw.2) := by
        rw [entryAt_moveToFront]
        exact he
      obtain ⟨n, hn, hnk, hnv⟩ := entryAt_elim he2
      simp [Get, hm, getN, hn, hnv, hw]

/-- The spec-level invariant of claim C1: map size equals list length,
both bounded by the capacity, and every key resolves to a node storing
that key. -/
def basicInv [DecidableEq K] (c : LruCache K V) : Prop :=
  (c.items.length : Int) = c.queue.len ∧
  c.queue.len ≤ c.capacity ∧
  ∀ p ∈ c.items, ∃ n, getN c.queue p.2 = some n ∧ n.value.key = p.1

instance [DecidableEq K] [DecidableEq V] (c : LruCache K V) :
    Decidable (basicInv c) := by
  unfold basicInv; infer_instance

theorem items_length_rep [DecidableEq K] {c : LruCache K V} {ids : List Nat}
    {abs : List (K × V)} (hrep : cacheRep c ids abs) :
    c.items.length = abs.length := by
  rw [hrep.2.2.2.2.length_eq]
  show (List.map _ (List.zip ids abs)).length = abs.length
  rw [List.length_map, List.length_zip, hrep.2.1]
  exact min_self _

theorem basicInv_of_wf [DecidableEq K] {c : LruCache K V} (hwf : CacheWF c) :
    basicInv c := by
  obtain ⟨hcap, ids, abs, hrep, hsize⟩ := hwf
  refine ⟨?_, ?_, ?_⟩
  · rw [items_length_rep hrep, hrep.1.1, hrep.2.1]
  · rw [hrep.1.1, hrep.2.1]
    exact hsize
  · intro p hp
    have hp' : p ∈ assocOf ids abs := hrep.2.2.2.2.mem_iff.mp hp
    obtain ⟨q, hq, hqe⟩ := List.mem_map.mp hp'
    have hent := hrep.2.2.1 q hq
    obtain ⟨n, hn, hnk, hnv⟩ := entryAt_elim hent
    refine ⟨n, ?_, ?_⟩
    · show getN c.queue p.2 = some n
      rw [← hqe]
      exact hn
    · rw [← hqe]
      exact hnk

theorem keyIndex_ne_none [DecidableEq K] {ids : List Nat} {abs : List (K × V)}
    (hlen : ids.length = abs.length) {k : K} (hk : k ∈ abs.map Prod.fst) :
    keyIndex ids abs k ≠ none := by
  induction ids generalizing abs with
  | nil =>
    cases abs with
    | nil => cases hk
    | cons kv abs => cases hlen
  | cons i ids ih =>
    cases abs with
    | nil => cases hk
    | cons kv abs =>
      by_cases hke : kv.1 = k
      · rw [keyIndex, if_pos hke]
        exact Option.some_ne_none i
      · rw [keyIndex, if_neg hke]
        refine ih (by simpa using hlen) ?_
        rcases List.mem_cons.mp hk with h | h
        · exact absurd h.symm hke
        · exact h

/-- A `Set` of an absent key returns `false`, regardless of the state. -/
theorem Set_false_of_absent [DecidableEq K] {c : LruCache K V} {k : K}
    (hm : mapLookup c.items k = none) (v : V) : (Set c k v).2 = false := by
  simp only [Set, hm]
  split
  · split <;> rfl
  · rfl

/-- A `Set` of a present key returns `true`, regardless of the state. -/
theorem Set_true_of_present [DecidableEq K] {c : LruCache K V} {k : K} {i : Nat}
    (hm : mapLookup c.items k = some i) (v : V) : (Set c k v).2 = true := by
  simp only [Set, hm]

/-- No `Set` shrinks the map: at most one entry is ever removed, and only
together with one being added. -/
theorem Set_items_mono [DecidableEq K] {c : LruCache K V} (hwf : CacheWF c)
    (k : K) (v : V) : c.items.length ≤ (Set c k v).1.items.length := by
  obtain ⟨hcap, ids, abs, hrep, hsize⟩ := hwf
  by_cases hk : k ∈ abs.map Prod.fst
  · obtain ⟨is, i, js, xs, w, ys, h1, h2, h3⟩ := rep_decompose hrep.2.1 hk
    rw [h1, h2] at hrep
    obtain ⟨-, hrep', -, hitems⟩ := Set_present_rep hrep h3 v
    rw [hitems]
  · by_cases hfits : (ids.length : Int) + 1 ≤ c.capacity
    · obtain ⟨-, hrep', -⟩ := Set_absent_nofull_rep hrep hk hfits v
      rw [items_length_rep hrep', items_length_rep hrep]
      simp
    · have hlenz : ids.length = abs.length := hrep.2.1
      have habs_ne : abs ≠ [] := by
        intro h
        rw [h] at hlenz
        have hids0 : ids = [] := List.length_eq_zero.mp (by simpa using hlenz)
        rw [hids0] at hfits
        simp only [List.length_nil] at hfits
        omega
      obtain ⟨ids0, b, abs0, bk, bv, h1, h2, h3⟩ := concat_decompose hlenz habs_ne
      rw [h1, h2] at hrep
      rw [h2] at hk
      have hcap2 : c.capacity < (ids0.length : Int) + 2 := by
        rw [h1] at hfits
        simp only [List.length_append, List.length_cons, List.length_nil] at hfits
        push_cast at hfits
        omega
      obtain ⟨-, hrep', -⟩ := Set_absent_full_rep hrep hk hcap2 v
      rw [items_length_rep hrep', items_length_rep hrep]
      simp

/-- The invariant of a freshly constructed cache. -/
theorem NewCache_wf {K V : Type} [DecidableEq K] {cap : Int} {c : LruCache K V}
    (h : NewCache K V cap = some c) : CacheWF c := by
  by_cases hcap : cap < 1
  · rw [NewCache_neg hcap] at h
    cases h
  · rw [NewCache_pos (by omega)] at h
    cases h
    refine ⟨show (1:Int) ≤ cap by omega, [], [], NewCache_rep cap, ?_⟩
    show (([] : List (K × V)).length : Int) ≤ cap
    simp only [List.length_nil]
    push_cast
    omega

/-! ## Claim theorems for the cache -/

/-- C1: for every cache constructed by `NewCache` with capacity `c ≥ 1`
and every finite sequence of `Set`, `Get` and `Clear` calls, after each
call the cache invariant holds: the mapping and the list have the same
number of entries, that number is at most `c`, and every key in the
mapping resolves to a list node whose stored key equals that key. -/
theorem claim_C1 {K V : Type} [DecidableEq K] [Inhabited V] (cap : Int)
    (c0 : LruCache K V) (h : NewCache K V cap = some c0)
    (ops : List (Op K V)) : basicInv (runOps c0 ops) :=
  basicInv_of_wf (runOps_wf (NewCache_wf h) ops)

/-- C4: `Set` returns `true` exactly when the key is already present; on a
present key it overwrites the value in place, moves the node to the front
and changes neither the map nor the entry count; on an absent key it
creates a new front node holding the pair, the map gains the key, and
`Set` returns `false`. -/
theorem claim_C4 {K V : Type} [DecidableEq K] [Inhabited V] :
    (∀ (c : LruCache K V) (k : K) (v : V),
      ((Set c k v).2 = true ↔ mapLookup c.items k ≠ none)) ∧
    (∀ (c : LruCache K V) (is js : List Nat) (i : Nat) (xs ys : List (K × V))
      (k : K) (w v : V),
      cacheRep c (is ++ i :: js) (xs ++ (k, w) :: ys) → is.length = xs.length →
      (Set c k v).2 = true ∧
        lookVal (Set c k v).1 k = some v ∧
        (Set c k v).1.queue.front = some i ∧
        (Set c k v).1.items = c.items ∧
        (Set c k v).1.items.length = c.items.length) ∧
    (∀ (c : LruCache K V) (ids : List Nat) (abs : List (K × V)) (k : K) (v : V),
      cacheRep c ids abs → k ∉ abs.map Prod.fst → 1 ≤ c.capacity →
      (abs.length : Int) ≤ c.capacity →
      (Set c k v).2 = false ∧
        (Set c k v).1.queue.front = some c.queue.nodes.length ∧
        entryAt (Set c k v).1.queue c.queue.nodes.length = some (k, v) ∧
        mapLookup (Set c k v).1.items k = some c.queue.nodes.length) := by
  refine ⟨?_, ?_, ?_⟩
  · intro c k v
    cases hm : mapLookup c.items k with
    | none =>
      rw [Set_false_of_absent hm v]
      simp
    | some i =>
      rw [Set_true_of_present hm v]
      simp
  · intro c is js i xs ys k w v hrep hlenx
    obtain ⟨htrue, hrep', hcapq, hitems⟩ := Set_present_rep hrep hlenx v
    refine ⟨htrue, ?_, ?_, hitems, by rw [hitems]⟩
    · rw [lookVal_rep hrep' k, absLookup_cons_self]
    · rw [hrep'.1.2.1]
      rfl
  · intro c ids abs k v hrep hk hcap hsize
    have hmain : (Set c k v).2 = false ∧ ∃ ids' abs',
        cacheRep (Set c k v).1 (c.queue.nodes.length :: ids')
          ((k, v) :: abs') := by
      by_cases hfits : (ids.length : Int) + 1 ≤ c.capacity
      · obtain ⟨h1, h2, -⟩ := Set_absent_nofull_rep hrep hk hfits v
        exact ⟨h1, ids, abs, h2⟩
      · have hlenz : ids.length = abs.length := hrep.2.1
        have habs_ne : abs ≠ [] := by
          intro h
          rw [h] at hlenz
          have hids0 : ids = [] := List.length_eq_zero.mp (by simpa using hlenz)
          rw [hids0] at hfits
          simp only [List.length_nil] at hfits
          omega
        obtain ⟨ids0, b, abs0, bk, bv, h1, h2, h3⟩ := concat_decompose hlenz habs_ne
        rw [h1, h2] at hrep
        rw [h2] at hk
        have hcap2 : c.capacity < (ids0.length : Int) + 2 := by
          rw [h1] at hfits
          simp only [List.length_append, List.length_cons, List.length_nil] at hfits
          push_cast at hfits
          omega
        obtain ⟨ha, hb, -⟩ := Set_absent_full_rep hrep hk hcap2 v
        exact ⟨ha, ids0, abs0, hb⟩
    obtain ⟨hfalse, ids', abs', hrep'⟩ := hmain
    refine ⟨hfalse, ?_, ?_, ?_⟩
    · rw [hrep'.1.2.1]
      rfl
    · exact hrep'.2.2.1 _ (by
        rw [List.zip_cons_cons]
        exact List.mem_cons_self _ _)
    · rw [rep_lookup hrep' k]
      simp [keyIndex]

/-- C6: `NewCache` returns the absent value exactly when `capacity < 1`,
and otherwise a cache whose list and key-to-node mapping are empty; the
failure is signalled purely through the returned value. -/
theorem claim_C6 {K V : Type} [DecidableEq K] (cap : Int) :
    (NewCache K V cap = none ↔ cap < 1) ∧
    (1 ≤ cap → NewCache K V cap = some ⟨cap, newList (CacheItem K V), []⟩) := by
  refine ⟨⟨?_, NewCache_neg⟩, fun h => NewCache_pos h⟩
  intro h
  by_contra hc
  rw [NewCache_pos (by omega)] at h
  cases h

/-- C7: `Clear` resets the list and the mapping to empty — every
previously inserted key is absent and the size is 0 — while the capacity
is unchanged; the cleared cache is literally the state `NewCache` builds
for that capacity, so every subsequent operation behaves as on a freshly
constructed cache. -/
theorem claim_C7 {K V : Type} [DecidableEq K] (c : LruCache K V) :
    (Clear c).capacity = c.capacity ∧
    (Clear c).queue = newList (CacheItem K V) ∧
    (Clear c).items = [] ∧
    Len (Clear c).queue = 0 ∧
    (∀ k : K, mapLookup (Clear c).items k = none) ∧
    (1 ≤ c.capacity → NewCache K V c.capacity = some (Clear c)) := by
  refine ⟨rfl, rfl, rfl, rfl, fun k => rfl, fun h => ?_⟩
  rw [NewCache_pos h]
  rfl


/-- C5: after `Set(k, v)`, as long as `k` has neither been evicted nor
rewritten by another `Set` of `k` (no such call occurs and `k` is still in
the map), `Get(k)` returns `(v, true)`; and `Get` of a key not in the map
— never inserted, or evicted — returns the zero value with `false`. -/
theorem claim_C5 {K V : Type} [DecidableEq K] [Inhabited V] :
    (∀ (c : LruCache K V) (k : K) (v : V) (ops : List (Op K V)), CacheWF c →
      (∀ op ∈ ops, ∀ v', op ≠ Op.set k v') →
      mapLookup (runOps (Set c k v).1 ops).items k ≠ none →
      (Get (runOps (Set c k v).1 ops) k).2 = (v, true)) ∧
    (∀ (c : LruCache K V) (k : K), mapLookup c.items k = none →
      (Get c k).2 = (default, false)) := by
  constructor
  · intro c k v ops hwf hops hpresent
    have hwf1 : CacheWF (Set c k v).1 := step_wf hwf (Op.set k v)
    have hv1 : lookVal (Set c k v).1 k = some v := Set_lookVal hwf k v
    have hwf2 : CacheWF (runOps (Set c k v).1 ops) := runOps_wf hwf1 ops
    rcases runOps_val hwf1 hv1 hops with h | h
    · exact Get_hit_of_lookVal h
    · exact absurd ((lookVal_none_iff hwf2 k).mp h) hpresent
  · intro c k h
    rw [Get_absent h]

/-- C2: on a cache at full capacity, a `Set` of an absent key removes
exactly one entry — the back node of the list, which holds the
least-recently-used pair — from both the list and the mapping, and the
entry count is unchanged; moreover no `Set` ever removes more than one
entry (the map never shrinks across a `Set`). -/
theorem claim_C2 {K V : Type} [DecidableEq K] [Inhabited V] :
    (∀ (c : LruCache K V) (ids0 : List Nat) (b : Nat) (abs0 : List (K × V))
      (bk : K) (bv : V) (k : K) (v : V),
      cacheRep c (ids0 ++ [b]) (abs0 ++ [(bk, bv)]) →
      ((abs0 ++ [(bk, bv)]).length : Int) = c.capacity →
      k ∉ (abs0 ++ [(bk, bv)]).map Prod.fst →
      c.queue.back = some b ∧
      (Set c k v).2 = false ∧
      cacheRep (Set c k v).1 (c.queue.nodes.length :: ids0) ((k, v) :: abs0) ∧
      mapLookup (Set c k v).1.items bk = none ∧
      (Set c k v).1.items.length = c.items.length) ∧
    (∀ (c : LruCache K V) (k : K) (v : V), CacheWF c →
      c.items.length ≤ (Set c k v).1.items.length) := by
  constructor
  · intro c ids0 b abs0 bk bv k v hrep hfull hk
    have h3 : ids0.length = abs0.length := by
      have := hrep.2.1
      simp only [List.length_append, List.length_cons, List.length_nil] at this
      omega
    have hcap2 : c.capacity < (ids0.length : Int) + 2 := by
      rw [← hfull]
      simp only [List.length_append, List.length_cons, List.length_nil]
      push_cast
      omega
    have hndk := hrep.2.2.2.1
    rw [List.map_append, List.nodup_append] at hndk
    have hbk0 : bk ∉ abs0.map Prod.fst := fun hm => (hndk.2.2 hm) (by simp)
    have hbkk : bk ≠ k := by
      intro he
      apply hk
      rw [List.map_append]
      exact List.mem_append_right _ (by simp [he])
    obtain ⟨hfalse, hrep', -⟩ := Set_absent_full_rep hrep hk hcap2 v
    refine ⟨?_, hfalse, hrep', ?_, ?_⟩
    · rw [hrep.1.2.2.1, List.getLast?_concat]
    · rw [rep_lookup hrep' bk]
      apply keyIndex_eq_none
      simp only [List.map_cons, List.mem_cons]
      push_neg
      exact ⟨hbkk, hbk0⟩
    · rw [items_length_rep hrep', items_length_rep hrep]
      simp only [List.length_append, List.length_cons, List.length_nil]
  · intro c k v hwf
    exact Set_items_mono hwf k v

/-- C3: `Get(k)` as well as `Set(k, _)` on a present key makes `k` the
most-recently-used key — its node becomes the front of the list — and a
subsequent over-capacity insertion does not evict `k` as long as some
other key is strictly less recently used. -/
theorem claim_C3 {K V : Type} [DecidableEq K] [Inhabited V] :
    (∀ (c : LruCache K V) (is js : List Nat) (i : Nat) (xs ys : List (K × V))
      (k : K) (w v : V),
      cacheRep c (is ++ i :: js) (xs ++ (k, w) :: ys) → is.length = xs.length →
      ((Get c k).1.queue.front = some i ∧
        entryAt (Get c k).1.queue i = some (k, w)) ∧
      ((Set c k v).1.queue.front = some i ∧
        entryAt (Set c k v).1.queue i = some (k, v))) ∧
    (∀ (c : LruCache K V) (ids' : List Nat) (i : Nat) (zs : List (K × V))
      (k : K) (w : V) (k' : K) (v' : V),
      cacheRep c (i :: ids') ((k, w) :: zs) →
      zs ≠ [] →
      k' ∉ ((k, w) :: zs).map Prod.fst →
      mapLookup (Set c k' v').1.items k ≠ none) := by
  constructor
  · intro c is js i xs ys k w v hrep hlenx
    obtain ⟨-, hrepG, -, -⟩ := Get_present_rep hrep hlenx
    obtain ⟨-, hrepS, -, -⟩ := Set_present_rep hrep hlenx v
    constructor
    · refine ⟨by rw [hrepG.1.2.1]; rfl, ?_⟩
      exact hrepG.2.2.1 _ (by
        rw [List.zip_cons_cons]
        exact List.mem_cons_self _ _)
    · refine ⟨by rw [hrepS.1.2.1]; rfl, ?_⟩
      exact hrepS.2.2.1 _ (by
        rw [List.zip_cons_cons]
        exact List.mem_cons_self _ _)
  · intro c ids' i zs k w k' v' hrep hzs hk'
    by_cases hfits : (((i :: ids').length : Nat) : Int) + 1 ≤ c.capacity
    · obtain ⟨-, hrep', -⟩ := Set_absent_nofull_rep hrep hk' hfits v'
      rw [rep_lookup hrep' k]
      apply keyIndex_ne_none hrep'.2.1
      simp
    · have hlenz : (i :: ids').length = ((k, w) :: zs).length := hrep.2.1
      obtain ⟨ids0, b, abs0, bk, bv, h1, h2, h3⟩ :=
        concat_decompose hlenz (by simp)
      have habs0 : ∃ t, abs0 = (k, w) :: t := by
        cases abs0 with
        | nil =>
          exfalso
          simp only [List.nil_append] at h2
          rw [show ([(bk, bv)] : List (K × V)) = (bk, bv) :: [] from rfl] at h2
          have := (List.cons.injEq _ _ _ _).mp h2
          exact hzs this.2
        | cons a t =>
          rw [List.cons_append] at h2
          have := (List.cons.injEq _ _ _ _).mp h2
          exact ⟨t, by rw [← this.1]⟩
      rw [h1, h2] at hrep
      rw [h2] at hk'
      have hcap2 : c.capacity < (ids0.length : Int) + 2 := by
        rw [h1] at hfits
        simp only [List.length_append, List.length_cons, List.length_nil] at hfits
        push_cast at hfits
        omega
      obtain ⟨-, hrep', -⟩ := Set_absent_full_rep hrep hk' hcap2 v'
      rw [rep_lookup hrep' k]
      apply keyIndex_ne_none hrep'.2.1
      obtain ⟨t, ht⟩ := habs0
      rw [ht]
      simp

/-- Concrete exercise of C1: a capacity-2 cache driven through inserts,
eviction, a hit and a clear keeps the invariant. -/
theorem claim_C1_witness :
    basicInv (runOps (⟨2, newList (CacheItem Nat Nat), []⟩ : LruCache Nat Nat)
      [Op.set 1 10, Op.set 2 20, Op.set 3 30, Op.get 1, Op.clear, Op.set 4 40]) :=
  claim_C1 2 ⟨2, newList (CacheItem Nat Nat), []⟩ (by decide)
    [Op.set 1 10, Op.set 2 20, Op.set 3 30, Op.get 1, Op.clear, Op.set 4 40]

/-- Concrete exercise of C2: a full capacity-2 cache holding keys 1 and 2
evicts exactly key 1 (the back node) when key 3 is inserted. -/
theorem claim_C2_witness :
    (⟨2, ⟨[⟨⟨1, 10⟩, none, some 1⟩, ⟨⟨2, 20⟩, some 0, none⟩], 2, some 1, some 0⟩,
        [(1, 0), (2, 1)]⟩ : LruCache Nat Nat).queue.back = some 0 ∧
    (Set (⟨2, ⟨[⟨⟨1, 10⟩, none, some 1⟩, ⟨⟨2, 20⟩, some 0, none⟩], 2, some 1,
        some 0⟩, [(1, 0), (2, 1)]⟩ : LruCache Nat Nat) 3 30).2 = false :=
  have h := (claim_C2 (K := Nat) (V := Nat)).1
    ⟨2, ⟨[⟨⟨1, 10⟩, none, some 1⟩, ⟨⟨2, 20⟩, some 0, none⟩], 2, some 1, some 0⟩,
      [(1, 0), (2, 1)]⟩ [1] 0 [(2, 20)] 1 10 3 30 (by decide) (by decide) (by decide)
  ⟨h.1, h.2.1⟩

/-- Concrete exercise of C3: a hit on key 1 moves its node (index 0) to
the front, and inserting key 5 into the full cache does not evict key 2,
which sits at the front. -/
theorem claim_C3_witness :
    (Get (⟨3, ⟨[⟨⟨1, 10⟩, none, some 1⟩, ⟨⟨2, 20⟩, some 0, none⟩], 2, some 1,
        some 0⟩, [(1, 0), (2, 1)]⟩ : LruCache Nat Nat) 1).1.queue.front = some 0 ∧
    mapLookup (Set (⟨2, ⟨[⟨⟨1, 10⟩, none, some 1⟩, ⟨⟨2, 20⟩, some 0, none⟩], 2,
        some 1, some 0⟩, [(1, 0), (2, 1)]⟩ : LruCache Nat Nat) 5 50).1.items 2 ≠
      none :=
  ⟨((claim_C3 (K := Nat) (V := Nat)).1
      ⟨3, ⟨[⟨⟨1, 10⟩, none, some 1⟩, ⟨⟨2, 20⟩, some 0, none⟩], 2, some 1, some 0⟩,
        [(1, 0), (2, 1)]⟩ [1] [] 0 [(2, 20)] [] 1 10 99 (by decide)
      (by decide)).1.1,
    (claim_C3 (K := Nat) (V := Nat)).2
      ⟨2, ⟨[⟨⟨1, 10⟩, none, some 1⟩, ⟨⟨2, 20⟩, some 0, none⟩], 2, some 1, some 0⟩,
        [(1, 0), (2, 1)]⟩ [0] 1 [(1, 10)] 2 20 5 50 (by decide) (by decide)
      (by decide)⟩

/-- Concrete exercise of C4: updating present key 1 returns `true` and
moves its node to the front; inserting absent key 7 registers the fresh
node in the map. -/
theorem claim_C4_witness :
    (Set (⟨3, ⟨[⟨⟨1, 10⟩, none, some 1⟩, ⟨⟨2, 20⟩, some 0, none⟩], 2, some 1,
        some 0⟩, [(1, 0), (2, 1)]⟩ : LruCache Nat Nat) 1 99).1.queue.front =
      some 0 ∧
    mapLookup (Set (⟨3, ⟨[⟨⟨1, 10⟩, none, some 1⟩, ⟨⟨2, 20⟩, some 0, none⟩], 2,
        some 1, some 0⟩, [(1, 0), (2, 1)]⟩ : LruCache Nat Nat) 7 70).1.items 7 =
      some 2 :=
  ⟨((claim_C4 (K := Nat) (V := Nat)).2.1
      ⟨3, ⟨[⟨⟨1, 10⟩, none, some 1⟩, ⟨⟨2, 20⟩, some 0, none⟩], 2, some 1, some 0⟩,
        [(1, 0), (2, 1)]⟩ [1] [] 0 [(2, 20)] [] 1 10 99 (by decide)
      (by decide)).2.2.1,
    ((claim_C4 (K := Nat) (V := Nat)).2.2
      ⟨3, ⟨[⟨⟨1, 10⟩, none, some 1⟩, ⟨⟨2, 20⟩, some 0, none⟩], 2, some 1, some 0⟩,
        [(1, 0), (2, 1)]⟩ [1, 0] [(2, 20), (1, 10)] 7 70 (by decide) (by decide)
      (by decide) (by decide)).2.2.2⟩

/-- Concrete exercise of C5: after `Set 5 50` and two unrelated calls, key
5 is still present and `Get 5` returns `(50, true)`; a never-inserted key
yields `(0, false)`. -/
theorem claim_C5_witness :
    (Get (runOps (Set (⟨3, ⟨[⟨⟨1, 10⟩, none, some 1⟩, ⟨⟨2, 20⟩, some 0, none⟩],
        2, some 1, some 0⟩, [(1, 0), (2, 1)]⟩ : LruCache Nat Nat) 5 50).1
      [Op.get 1, Op.set 7 70]) 5).2 = (50, true) ∧
    (Get (⟨3, ⟨[⟨⟨1, 10⟩, none, some 1⟩, ⟨⟨2, 20⟩, some 0, none⟩], 2, some 1,
        some 0⟩, [(1, 0), (2, 1)]⟩ : LruCache Nat Nat) 42).2 = (0, false) :=
  ⟨(claim_C5 (K := Nat) (V := Nat)).1
      ⟨3, ⟨[⟨⟨1, 10⟩, none, some 1⟩, ⟨⟨2, 20⟩, some 0, none⟩], 2, some 1, some 0⟩,
        [(1, 0), (2, 1)]⟩ 5 50 [Op.get 1, Op.set 7 70]
      ⟨by decide, [1, 0], [(2, 20), (1, 10)], by decide, by decide⟩
      (by
        intro op hm v'
        rcases List.mem_cons.mp hm with h | h
        · subst h
          simp
        · rcases List.mem_cons.mp h with h2 | h2
          · subst h2
            simp
          · cases h2)
      (by decide),
    (claim_C5 (K := Nat) (V := Nat)).2
      ⟨3, ⟨[⟨⟨1, 10⟩, none, some 1⟩, ⟨⟨2, 20⟩, some 0, none⟩], 2, some 1, some 0⟩,
        [(1, 0), (2, 1)]⟩ 42 (by decide)⟩

/-- Concrete exercise of C6: capacity 0 is rejected, capacity 3 yields the
empty cache. -/
theorem claim_C6_witness :
    NewCache Nat Nat 0 = none ∧
    NewCache Nat Nat 3 = some ⟨3, newList (CacheItem Nat Nat), []⟩ :=
  ⟨(claim_C6 (K := Nat) (V := Nat) 0).1.mpr (by decide),
    (claim_C6 (K := Nat) (V := Nat) 3).2 (by decide)⟩

/-- Concrete exercise of C7: clearing a populated cache yields exactly the
state `NewCache` would construct for its capacity. -/
theorem claim_C7_witness :
    NewCache Nat Nat
      (⟨3, ⟨[⟨⟨1, 10⟩, none, some 1⟩, ⟨⟨2, 20⟩, some 0, none⟩], 2, some 1,
        some 0⟩, [(1, 0), (2, 1)]⟩ : LruCache Nat Nat).capacity =
      some (Clear ⟨3, ⟨[⟨⟨1, 10⟩, none, some 1⟩, ⟨⟨2, 20⟩, some 0, none⟩], 2,
        some 1, some 0⟩, [(1, 0), (2, 1)]⟩) :=
  (claim_C7 ⟨3, ⟨[⟨⟨1, 10⟩, none, some 1⟩, ⟨⟨2, 20⟩, some 0, none⟩], 2, some 1,
    some 0⟩, [(1, 0), (2, 1)]⟩).2.2.2.2.2 (by decide)

/-! ## Reachable lists and the list-invariant claim (C8) -/

/-- Fuel-bounded walk along `Next` pointers. -/
def traverse (ns : List (Node V)) : Nat → Option Nat → List Nat
  | 0, _ => []
  | _ + 1, none => []
  | fuel + 1, some i =>
    i :: traverse ns fuel (match ns[i]? with
      | some n => n.next
      | none => none)

/-- The nodes reachable from the front of the list, front to back. -/
def reachIds (l : GoList V) : List Nat :=
  traverse l.nodes l.nodes.length l.front

/-- The node `i` belongs to the list (is reachable from its front). -/
def memberB (l : GoList V) (i : Nat) : Bool :=
  decide (i ∈ reachIds l)

theorem head?_eq_headOr (ids : List Nat) : ids.head? = headOr ids none := by
  cases ids <;> rfl

theorem traverse_of_dseg {ns : List (Node V)} {ids : List Nat} {pv : Option Nat}
    (hseg : dseg ns pv ids none = true) {fuel : Nat}
    (hfuel : ids.length ≤ fuel) :
    traverse ns fuel (headOr ids none) = ids := by
  induction ids generalizing pv fuel with
  | nil => cases fuel <;> rfl
  | cons i rest ih =>
    cases fuel with
    | zero =>
      simp only [List.length_cons] at hfuel
      omega
    | succ fuel =>
      rw [show dseg ns pv (i :: rest) none =
          (nodeOk ns pv i (headOr rest none) && dseg ns (some i) rest none)
          from rfl, Bool.and_eq_true] at hseg
      obtain ⟨n, hn, hnp, hnn⟩ := nodeOk_eq hseg.1
      show i :: traverse ns fuel _ = i :: rest
      congr 1
      rw [show (match ns[i]? with
          | some n => n.next
          | none => none) = headOr rest none from by rw [hn]; exact hnn]
      exact ih hseg.2 (by simpa using Nat.le_of_succ_le_succ (by simpa using hfuel))

/-- On a well-formed list the traversal returns exactly the chain. -/
theorem reachIds_eq {l : GoList V} {ids : List Nat} (h : listRep l ids) :
    reachIds l = ids := by
  obtain ⟨hlen, hfront, hback, hnd, hseg⟩ := h
  have hfuel : ids.length ≤ l.nodes.length := by
    have hsub : ids ⊆ List.range l.nodes.length := fun i hi =>
      List.mem_range.mpr (mem_lt_of_dseg hseg hi)
    have := (hnd.subperm hsub).length_le
    simpa using this
  unfold reachIds
  rw [hfront, head?_eq_headOr]
  exact traverse_of_dseg hseg hfuel

/-- Some chain represents the list. -/
def GoodList (l : GoList V) : Prop := ∃ ids, listRep l ids

/-- Lists reachable from `NewList` by `PushFront`, `PushBack`, `Remove` of
a member node (or of any node while the list is empty, where `Remove`
returns immediately) and `MoveToFront` of a member node. -/
inductive Reachable {V : Type} : GoList V → Prop where
  | nil : Reachable (newList V)
  | pushF {l : GoList V} (v : V) : Reachable l → Reachable (pushFront l v).1
  | pushB {l : GoList V} (v : V) : Reachable l → Reachable (pushBack l v).1
  | rem {l : GoList V} (e : Nat) : Reachable l →
      l.len = 0 ∨ memberB l e = true → Reachable (remove l e)
  | mtf {l : GoList V} (e : Nat) : Reachable l → memberB l e = true →
      Reachable (moveToFront l e)

theorem goodList_of_reachable {l : GoList V} (h : Reachable l) : GoodList l := by
  induction h with
  | nil => exact ⟨[], listRep_newList V⟩
  | pushF v _ ih =>
    obtain ⟨ids, hrep⟩ := ih
    exact ⟨_, (pushFront_rep hrep v).1⟩
  | pushB v _ ih =>
    obtain ⟨ids, hrep⟩ := ih
    exact ⟨_, (pushBack_rep hrep v).1⟩
  | rem e _ hcond ih =>
    obtain ⟨ids, hrep⟩ := ih
    rcases hcond with h0 | hm
    · refine ⟨ids, ?_⟩
      rw [show remove _ e = _ from by unfold remove; rw [if_pos h0]]
      exact hrep
    · have hmem : e ∈ ids := by
        unfold memberB at hm
        rw [reachIds_eq hrep] at hm
        exact of_decide_eq_true hm
      exact ⟨_, remove_rep hrep hmem⟩
  | mtf e _ hm ih =>
    obtain ⟨ids, hrep⟩ := ih
    have hmem : e ∈ ids := by
      unfold memberB at hm
      rw [reachIds_eq hrep] at hm
      exact of_decide_eq_true hm
    exact ⟨_, moveToFront_rep hrep hmem⟩

/-- The front node has no predecessor. -/
def frontPrevNone (l : GoList V) : Bool :=
  match l.front with
  | none => true
  | some f =>
    match getN l f with
    | some n => n.prev == none
    | none => false

/-- The back node has no successor. -/
def backNextNone (l : GoList V) : Bool :=
  match l.back with
  | none => true
  | some b =>
    match getN l b with
    | some n => n.next == none
    | none => false

/-- Consecutive reachable nodes point at each other (`a.next.prev == a`). -/
def adjOk (ns : List (Node V)) : List Nat → Bool
  | a :: b :: rest =>
    (match ns[a]?, ns[b]? with
     | some n, some m => n.next == some b && m.prev == some a
     | _, _ => false) && adjOk ns (b :: rest)
  | _ => true

/-- The claim-level list invariant of C8. -/
def listInv (l : GoList V) : Prop :=
  frontPrevNone l = true ∧
  backNextNone l = true ∧
  adjOk l.nodes (reachIds l) = true ∧
  (l.len = 0 ↔ l.front = none) ∧
  (l.len = 0 ↔ l.back = none) ∧
  (l.len = 1 → l.front = l.back) ∧
  l.len = ((reachIds l).length : Int)

instance (l : GoList V) [DecidableEq V] : Decidable (listInv l) := by
  unfold listInv
  infer_instance

theorem adjOk_of_dseg {ns : List (Node V)} :
    ∀ {pv : Option Nat} {ids : List Nat},
      dseg ns pv ids none = true → adjOk ns ids = true
  | _, [], _ => rfl
  | _, [_], _ => rfl
  | pv, a :: b :: rest, h => by
    rw [show dseg ns pv (a :: b :: rest) none =
        (nodeOk ns pv a (some b) && dseg ns (some a) (b :: rest) none)
        from rfl, Bool.and_eq_true] at h
    obtain ⟨na, hna, hnap, hnan⟩ := nodeOk_eq h.1
    have h2 := h.2
    rw [show dseg ns (some a) (b :: rest) none =
        (nodeOk ns (some a) b (headOr rest none) && dseg ns (some b) rest none)
        from rfl, Bool.and_eq_true] at h2
    obtain ⟨nb, hnb, hnbp, hnbn⟩ := nodeOk_eq h2.1
    show ((match ns[a]?, ns[b]? with
      | some n, some m => n.next == some b && m.prev == some a
      | _, _ => false) && adjOk ns (b :: rest)) = true
    rw [Bool.and_eq_true]
    refine ⟨?_, adjOk_of_dseg h.2⟩
    rw [hna, hnb]
    show (na.next == some b && nb.prev == some a) = true
    rw [Bool.and_eq_true, beq_iff_eq, beq_iff_eq]
    exact ⟨hnan, hnbp⟩

theorem listInv_of_listRep {l : GoList V} {ids : List Nat}
    (h : listRep l ids) : listInv l := by
  have hreach := reachIds_eq h
  obtain ⟨hlen, hfront, hback, hnd, hseg⟩ := h
  refine ⟨?_, ?_, ?_, ?_, ?_, ?_, ?_⟩
  · unfold frontPrevNone
    cases ids with
    | nil =>
      rw [hfront]
      rfl
    | cons j rest =>
      rw [hfront]
      rw [show dseg l.nodes none (j :: rest) none =
          (nodeOk l.nodes none j (headOr rest none) &&
            dseg l.nodes (some j) rest none) from rfl, Bool.and_eq_true] at hseg
      obtain ⟨n, hn, hnp, hnn⟩ := nodeOk_eq hseg.1
      show (match getN l j with
        | some n => n.prev == none
        | none => false) = true
      rw [show getN l j = some n from hn]
      simp [hnp]
  · unfold backNextNone
    rcases List.eq_nil_or_concat ids with hid | ⟨ids0, b, hid⟩
    · subst hid
      rw [hback]
      rfl
    · rw [show ids0.concat b = ids0 ++ [b] from by simp] at hid
      subst hid
      rw [hback, List.getLast?_concat]
      rw [dseg_append, Bool.and_eq_true] at hseg
      obtain ⟨n, hn, hnp, hnn⟩ := nodeOk_eq (by simpa [dseg] using hseg.2)
      show (match getN l b with
        | some n => n.next == none
        | none => false) = true
      rw [show getN l b = some n from hn]
      simp [hnn, headOr]
  · rw [hreach]
    exact adjOk_of_dseg hseg
  · cases ids with
    | nil =>
      rw [hlen, hfront]
      simp
    | cons j rest =>
      rw [hlen, hfront]
      constructor
      · intro hcontra
        simp only [List.length_cons] at hcontra
        exfalso
        omega
      · intro hcontra
        cases hcontra
  · cases ids with
    | nil =>
      rw [hlen, hback]
      simp
    | cons j rest =>
      rw [hlen, hback]
      constructor
      · intro hcontra
        simp only [List.length_cons] at hcontra
        exfalso
        omega
      · intro hcontra
        rcases List.eq_nil_or_concat (j :: rest) with hc | ⟨ids0, b, hc⟩
        · cases hc
        · rw [show ids0.concat b = ids0 ++ [b] from by simp] at hc
          rw [hc, List.getLast?_concat] at hcontra
          cases hcontra
  · intro h1
    match ids with
    | [] =>
      rw [hlen] at h1
      cases h1
    | [j] =>
      rw [hfront, hback]
      rfl
    | j :: k :: rest =>
      rw [hlen] at h1
      simp only [List.length_cons] at h1
      exfalso
      have : ((rest.length + 1 + 1 : Nat) : Int) = 1 := h1
      push_cast at this
      omega
  · rw [hreach, hlen]

/-- C8: every list reachable from the empty list by `PushFront`,
`PushBack`, `Remove` (of a member node) and `MoveToFront` (of a member
node) satisfies the invariants: the front node has no predecessor and the
back node has no successor, adjacent nodes point at each other, the
length is 0 exactly when front and back are absent, length 1 forces
`front = back`, and the stored length equals the number of nodes
reachable from the front; moreover `Remove` on an empty list is a no-op. -/
theorem claim_C8 {V : Type} (l : GoList V) (h : Reachable l) :
    listInv l ∧ (l.len = 0 → ∀ e, remove l e = l) := by
  obtain ⟨ids, hrep⟩ := goodList_of_reachable h
  refine ⟨listInv_of_listRep hrep, fun h0 e => ?_⟩
  unfold remove
  rw [if_pos h0]

/-- Concrete exercise of C8: push front and back, move the back node to
the front, then remove the front node; the invariant holds throughout the
final state. -/
theorem claim_C8_witness :
    listInv (remove (moveToFront (pushBack (pushFront (newList Nat) 1).1 2).1 1)
      1) ∧
    ((remove (moveToFront (pushBack (pushFront (newList Nat) 1).1 2).1 1)
      1).len = 0 → ∀ e, remove (remove (moveToFront (pushBack (pushFront
      (newList Nat) 1).1 2).1 1) 1) e = remove (moveToFront (pushBack
      (pushFront (newList Nat) 1).1 2).1 1) 1) :=
  claim_C8 _ (Reachable.rem 1
    (Reachable.mtf 1 (Reachable.pushB 2 (Reachable.pushF 1 Reachable.nil))
      (by decide))
    (Or.inr (by decide)))

/-! ## The untyped (`any`-valued) list variant

`src/unnamed/part_000` repeats `list.go` with `Value any` instead of a
type parameter.  Go's `any` is modelled by a type parameter `A` standing
for the universe of Go values; the code is otherwise translated exactly
like the generic variant. -/

/-- `ListItem` of the untyped variant. -/
structure NodeU (A : Type) where
  value : A
  next : Option Nat
  prev : Option Nat
deriving Repr, DecidableEq

/-- `list` of the untyped variant. -/
structure GoListU (A : Type) where
  nodes : List (NodeU A)
  len : Int
  front : Option Nat
  back : Option Nat
deriving Repr, DecidableEq

/-- `NewList` of the untyped variant. -/
def newListU (A : Type) : GoListU A := ⟨[], 0, none, none⟩

def getNU (l : GoListU A) (i : Nat) : Option (NodeU A) := l.nodes[i]?

def updAtU (ns : List (NodeU A)) (i : Nat) (f : NodeU A → NodeU A) :
    List (NodeU A) :=
  match ns[i]? with
  | some n => ns.set i (f n)
  | none => ns

def setNextU (l : GoListU A) (i : Nat) (nx : Option Nat) : GoListU A :=
  { l with nodes := updAtU l.nodes i (fun n => { n with next := nx }) }

def setPrevU (l : GoListU A) (i : Nat) (pv : Option Nat) : GoListU A :=
  { l with nodes := updAtU l.nodes i (fun n => { n with prev := pv }) }

/-- `Len()` of the untyped variant. -/
def uLen (l : GoListU A) : Int := l.len

/-- `Front()` of the untyped variant. -/
def uFront (l : GoListU A) : Option Nat := l.front

/-- `Back()` of the untyped variant. -/
def uBack (l : GoListU A) : Option Nat := l.back

/-- `pushFrontLogic` of the untyped variant. -/
def uPushFrontLogic (l : GoListU A) (i : Nat) : GoListU A :=
  let l1 :=
    if l.len = 0 then
      setNextU { l with front := some i, back := some i } i none
    else if l.len = 1 then
      let l' := setNextU { l with front := some i } i l.back
      match l.back with
      | some b => setPrevU l' b (some i)
      | none => l'
    else
      match l.front with
      | some f => { setNextU (setPrevU l f (some i)) i (some f) with front := some i }
      | none => l
  let l2 :=
    match l1.front with
    | some f => setPrevU l1 f none
    | none => l1
  { l2 with len := l2.len + 1 }

/-- `PushFront` of the untyped variant. -/
def uPushFront (l : GoListU A) (v : A) : GoListU A × Nat :=
  let i := l.nodes.length
  let l0 := { l with nodes := l.nodes ++ [(⟨v, none, none⟩ : NodeU A)] }
  (uPushFrontLogic l0 i, i)

/-- `PushBack` of the untyped variant. -/
def uPushBack (l : GoListU A) (v : A) : GoListU A × Nat :=
  let i := l.nodes.length
  let l0 := { l with nodes := l.nodes ++ [(⟨v, none, none⟩ : NodeU A)] }
  let l1 :=
    if l0.len = 0 then
      { l0 with front := some i, back := some i }
    else if l0.len = 1 then
      let l' := setPrevU { l0 with back := some i } i l0.front
      match l0.front with
      | some f => setNextU l' f (some i)
      | none => l'
    else
      match l0.back with
      | some b => { setPrevU (setNextU l0 b (some i)) i (some b) with back := some i }
      | none => l0
  ({ l1 with len := l1.len + 1 }, i)

/-- `Remove` of the untyped variant. -/
def uRemove (l : GoListU A) (elem : Nat) : GoListU A :=
  if l.len = 0 then l
  else
    let l1 :=
      if l.len = 1 then
        { l with front := none, back := none }
      else
        if some elem = l.front then
          match getNU l elem with
          | some n =>
            let l' := { l with front := n.next }
            match n.next with
            | some f2 => setPrevU l' f2 none
            | none => l'
          | none => l
        else if some elem = l.back then
          match getNU l elem with
          | some n =>
            let l' := { l with back := n.prev }
            match n.prev with
            | some b2 => setNextU l' b2 none
            | none => l'
          | none => l
        else
          match getNU l elem with
          | some n =>
            let l' :=
              match n.prev with
              | some p => setNextU l p n.next
              | none => l
            match getNU l' elem with
            | some n2 =>
              match n2.next with
              | some q => setPrevU l' q n2.prev
              | none => l'
            | none => l'
          | none => l
    { l1 with len := l1.len - 1 }

/-- `MoveToFront` of the untyped variant. -/
def uMoveToFront (l : GoListU A) (elem : Nat) : GoListU A :=
  uPushFrontLogic (uRemove l elem) elem

/-- Fuel-bounded walk along `Next` pointers in the untyped variant. -/
def traverseU (ns : List (NodeU A)) : Nat → Option Nat → List Nat
  | 0, _ => []
  | _ + 1, none => []
  | fuel + 1, some i =>
    i :: traverseU ns fuel (match ns[i]? with
      | some n => n.next
      | none => none)

def uReachIds (l : GoListU A) : List Nat :=
  traverseU l.nodes l.nodes.length l.front

/-- The front-to-back stored values of the untyped variant. -/
def uFrontToBackVals (l : GoListU A) : List (Option A) :=
  (uReachIds l).map (fun i => (getNU l i).map NodeU.value)

/-- The front-to-back stored values of the generic variant. -/
def frontToBackVals (l : GoList A) : List (Option A) :=
  (reachIds l).map (fun i => (getN l i).map Node.value)

/-! ## Equivalence of the two variants -/

/-- Translate a generic node into an untyped one. -/
def nodeToU (n : Node A) : NodeU A := ⟨n.value, n.next, n.prev⟩

/-- Translate a generic list state into the untyped representation. -/
def toU (l : GoList A) : GoListU A := ⟨l.nodes.map nodeToU, l.len, l.front, l.back⟩

theorem updAtU_map_gen (ns : List (Node A)) (i : Nat) (f : Node A → Node A)
    (g : NodeU A → NodeU A) (hfg : ∀ n, g (nodeToU n) = nodeToU (f n)) :
    updAtU (ns.map nodeToU) i g = (updAt ns i f).map nodeToU := by
  unfold updAt updAtU
  rw [List.getElem?_map]
  cases h : ns[i]? with
  | none => rfl
  | some n => simp [hfg n]

/-- `i.Next = nx` commutes with the node translation. -/
theorem updAtU_map_next (ns : List (Node A)) (i : Nat) (nx : Option Nat) :
    updAtU (ns.map nodeToU) i (fun n => { n with next := nx }) =
    (updAt ns i (fun n => { n with next := nx })).map nodeToU :=
  updAtU_map_gen ns i _ _ (fun _ => rfl)

/-- `i.Prev = pv` commutes with the node translation. -/
theorem updAtU_map_prev (ns : List (Node A)) (i : Nat) (pv : Option Nat) :
    updAtU (ns.map nodeToU) i (fun n => { n with prev := pv }) =
    (updAt ns i (fun n => { n with prev := pv })).map nodeToU :=
  updAtU_map_gen ns i _ _ (fun _ => rfl)

theorem toU_setNext (l : GoList A) (i : Nat) (nx : Option Nat) :
    toU (setNext l i nx) = setNextU (toU l) i nx := by
  obtain ⟨ns, len, front, back⟩ := l
  simp only [toU, setNext, setNextU]
  rw [updAtU_map_next]

theorem toU_setPrev (l : GoList A) (i : Nat) (pv : Option Nat) :
    toU (setPrev l i pv) = setPrevU (toU l) i pv := by
  obtain ⟨ns, len, front, back⟩ := l
  simp only [toU, setPrev, setPrevU]
  rw [updAtU_map_prev]

/-- `pushFrontLogic` commutes with the state translation. -/
theorem toU_pushFrontLogic (l : GoList A) (i : Nat) :
    toU (pushFrontLogic l i) = uPushFrontLogic (toU l) i := by
  obtain ⟨ns, len, front, back⟩ := l
  by_cases h0 : len = 0
  · subst h0
    cases back <;> cases front <;>
      simp [pushFrontLogic, uPushFrontLogic, toU, setNext, setNextU, setPrev, setPrevU,
        updAtU_map_next, updAtU_map_prev]
  · by_cases h1 : len = 1
    · subst h1
      cases back <;> cases front <;>
        simp [pushFrontLogic, uPushFrontLogic, toU, setNext, setNextU, setPrev, setPrevU,
          updAtU_map_next, updAtU_map_prev]
    · cases back <;> cases front <;>
        simp [pushFrontLogic, uPushFrontLogic, toU, setNext, setNextU, setPrev, setPrevU,
          updAtU_map_next, updAtU_map_prev, h0, h1]

theorem toU_nodes (l : GoList A) : (toU l).nodes = l.nodes.map nodeToU := rfl

theorem toU_len (l : GoList A) : (toU l).len = l.len := rfl

theorem toU_front (l : GoList A) : (toU l).front = l.front := rfl

theorem toU_back (l : GoList A) : (toU l).back = l.back := rfl

/-- `PushFront` commutes with the state translation, and both variants
return the same node. -/
theorem toU_pushFront (l : GoList A) (v : A) :
    toU (pushFront l v).1 = (uPushFront (toU l) v).1 ∧
    (pushFront l v).2 = (uPushFront (toU l) v).2 := by
  obtain ⟨ns, len, front, back⟩ := l
  refine ⟨?_, by simp [pushFront, uPushFront, toU]⟩
  simp only [pushFront, uPushFront, toU_nodes, toU_len, toU_front, toU_back,
    List.length_map]
  rw [toU_pushFrontLogic]
  simp [toU, nodeToU]

/-- `PushBack` commutes with the state translation, and both variants
return the same node. -/
theorem toU_pushBack (l : GoList A) (v : A) :
    toU (pushBack l v).1 = (uPushBack (toU l) v).1 ∧
    (pushBack l v).2 = (uPushBack (toU l) v).2 := by
  obtain ⟨ns, len, front, back⟩ := l
  refine ⟨?_, by simp [pushBack, uPushBack, toU]⟩
  simp only [pushBack, uPushBack, toU_nodes, toU_len, toU_front, toU_back,
    List.length_map]
  rw [show List.map nodeToU ns ++ [(⟨v, none, none⟩ : NodeU A)] =
    (ns ++ [(⟨v, none, none⟩ : Node A)]).map nodeToU by simp [nodeToU]]
  generalize ns ++ [(⟨v, none, none⟩ : Node A)] = ms
  by_cases h0 : len = 0
  · cases back <;> cases front <;>
      simp [toU, setNext, setNextU, setPrev, setPrevU, updAtU_map_next,
        updAtU_map_prev, h0]
  by_cases h1 : len = 1
  · cases back <;> cases front <;>
      simp [toU, setNext, setNextU, setPrev, setPrevU, updAtU_map_next,
        updAtU_map_prev, h0, h1]
  · cases back <;> cases front <;>
      simp [toU, setNext, setNextU, setPrev, setPrevU, updAtU_map_next,
        updAtU_map_prev, h0, h1]

/-- `Remove` commutes with the state translation. -/
theorem toU_remove (l : GoList A) (e : Nat) :
    toU (remove l e) = uRemove (toU l) e := by
  obtain ⟨ns, len, front, back⟩ := l
  by_cases h0 : len = 0
  · simp [remove, uRemove, toU, h0]
  by_cases h1 : len = 1
  · simp [remove, uRemove, toU, h0, h1]
  by_cases hf : some e = front
  · subst hf
    cases hn : ns[e]? with
    | none => simp [remove, uRemove, toU, getN, getNU, h0, h1, hn]
    | some n =>
      cases hnx : n.next with
      | none =>
        simp [remove, uRemove, toU, getN, getNU, h0, h1, hn, hnx, nodeToU]
      | some f2 =>
        simp [remove, uRemove, toU, getN, getNU, h0, h1, hn, hnx, nodeToU,
          setPrev, setPrevU, updAtU_map_prev]
  by_cases hb : some e = back
  · subst hb
    cases hn : ns[e]? with
    | none => simp [remove, uRemove, toU, getN, getNU, h0, h1, hf, hn]
    | some n =>
      cases hp : n.prev with
      | none =>
        simp [remove, uRemove, toU, getN, getNU, h0, h1, hf, hn, hp, nodeToU]
      | some b2 =>
        simp [remove, uRemove, toU, getN, getNU, h0, h1, hf, hn, hp, nodeToU,
          setNext, setNextU, updAtU_map_next]
  · cases hn : ns[e]? with
    | none => simp [remove, uRemove, toU, getN, getNU, h0, h1, hf, hb, hn]
    | some n =>
      cases hp : n.prev with
      | none =>
        cases hnx : n.next with
        | none =>
          simp [remove, uRemove, toU, getN, getNU, h0, h1, hf, hb, hn, hp, hnx,
            nodeToU]
        | some q =>
          simp [remove, uRemove, toU, getN, getNU, h0, h1, hf, hb, hn, hp, hnx,
            nodeToU, setPrev, setPrevU, updAtU_map_prev]
      | some p =>
        cases hn2 : (updAt ns p (fun m => { m with next := n.next }))[e]? with
        | none =>
          simp [remove, uRemove, toU, getN, getNU, h0, h1, hf, hb, hn, hp, hn2,
            nodeToU, setNext, setNextU, updAtU_map_next]
        | some n2 =>
          cases hnx2 : n2.next with
          | none =>
            simp [remove, uRemove, toU, getN, getNU, h0, h1, hf, hb, hn, hp, hn2,
              hnx2, nodeToU, setNext, setNextU, updAtU_map_next]
          | some q =>
            simp [remove, uRemove, toU, getN, getNU, h0, h1, hf, hb, hn, hp, hn2,
              hnx2, nodeToU, setNext, setNextU, setPrev, setPrevU,
              updAtU_map_next, updAtU_map_prev]

/-- `MoveToFront` commutes with the state translation. -/
theorem toU_moveToFront (l : GoList A) (e : Nat) :
    toU (moveToFront l e) = uMoveToFront (toU l) e := by
  unfold moveToFront uMoveToFront
  rw [toU_pushFrontLogic, toU_remove]

/-- The pointer walk is insensitive to the node translation. -/
theorem traverseU_map (ns : List (Node A)) (fuel : Nat) (cur : Option Nat) :
    traverseU (ns.map nodeToU) fuel cur = traverse ns fuel cur := by
  induction fuel generalizing cur with
  | zero => rfl
  | succ fuel ih =>
    cases cur with
    | none => rfl
    | some i =>
      show i :: traverseU (ns.map nodeToU) fuel _ = i :: traverse ns fuel _
      have hsc : (match (ns.map nodeToU)[i]? with
          | some n => n.next
          | none => none) = (match ns[i]? with
          | some n => n.next
          | none => none) := by
        rw [List.getElem?_map]
        cases ns[i]? <;> rfl
      rw [hsc, ih]

theorem uReachIds_toU (l : GoList A) : uReachIds (toU l) = reachIds l := by
  unfold uReachIds reachIds
  simp only [toU_nodes, toU_front, List.length_map]
  exact traverseU_map _ _ _

theorem getNU_toU (l : GoList A) (i : Nat) :
    getNU (toU l) i = (getN l i).map nodeToU := by
  simp [getNU, getN, toU]

theorem uFrontToBackVals_toU (l : GoList A) :
    uFrontToBackVals (toU l) = frontToBackVals l := by
  unfold uFrontToBackVals frontToBackVals
  rw [uReachIds_toU]
  simp only [getNU_toU]
  simp only [Option.map_map]
  refine List.map_congr_left ?_
  intro a _
  cases getN l a <;> rfl

/-- One mutating call, applied in parallel to both variants. -/
inductive LOp (A : Type) where
  | pushF (v : A)
  | pushB (v : A)
  | rem (i : Nat)
  | mtf (i : Nat)
deriving Repr, DecidableEq

def stepL (l : GoList A) : LOp A → GoList A
  | .pushF v => (pushFront l v).1
  | .pushB v => (pushBack l v).1
  | .rem i => remove l i
  | .mtf i => moveToFront l i

def stepLU (l : GoListU A) : LOp A → GoListU A
  | .pushF v => (uPushFront l v).1
  | .pushB v => (uPushBack l v).1
  | .rem i => uRemove l i
  | .mtf i => uMoveToFront l i

def runL (l : GoList A) (ops : List (LOp A)) : GoList A := ops.foldl stepL l

def runLU (l : GoListU A) (ops : List (LOp A)) : GoListU A := ops.foldl stepLU l

theorem toU_stepL (l : GoList A) (op : LOp A) :
    toU (stepL l op) = stepLU (toU l) op := by
  cases op with
  | pushF v => exact (toU_pushFront l v).1
  | pushB v => exact (toU_pushBack l v).1
  | rem i => exact toU_remove l i
  | mtf i => exact toU_moveToFront l i

theorem toU_runL (l : GoList A) (ops : List (LOp A)) :
    toU (runL l ops) = runLU (toU l) ops := by
  induction ops generalizing l with
  | nil => rfl
  | cons op ops ih =>
    show toU (runL (stepL l op) ops) = runLU (stepLU (toU l) op) ops
    rw [← toU_stepL]
    exact ih _

/-- **C10.** The generic list and the untyped variant are behaviorally
equivalent: starting from `NewList`, every sequence of `PushFront`,
`PushBack`, `Remove` and `MoveToFront` calls leads to states related by
the field-wise translation `toU`, with the same `Len`, `Front` and `Back`
observations, the same front-to-back sequence of stored values, and the
same node returned by any further `PushFront`/`PushBack` call. -/
theorem claim_C10 {A : Type} (ops : List (LOp A)) :
    toU (runL (newList A) ops) = runLU (newListU A) ops ∧
    uLen (runLU (newListU A) ops) = Len (runL (newList A) ops) ∧
    uFront (runLU (newListU A) ops) = Front (runL (newList A) ops) ∧
    uBack (runLU (newListU A) ops) = Back (runL (newList A) ops) ∧
    uFrontToBackVals (runLU (newListU A) ops) =
      frontToBackVals (runL (newList A) ops) ∧
    ∀ v : A,
      (uPushFront (runLU (newListU A) ops) v).2 =
        (pushFront (runL (newList A) ops) v).2 ∧
      (uPushBack (runLU (newListU A) ops) v).2 =
        (pushBack (runL (newList A) ops) v).2 := by
  have h : toU (runL (newList A) ops) = runLU (newListU A) ops :=
    toU_runL (newList A) ops
  refine ⟨h, ?_, ?_, ?_, ?_, ?_⟩ <;> rw [← h]
  · rfl
  · rfl
  · rfl
  · exact uFrontToBackVals_toU _
  · intro v
    exact ⟨((toU_pushFront _ v).2).symm, ((toU_pushBack _ v).2).symm⟩

end LRU
